import Mathlib

/-!
Verification of the graph-search engine in `src/App.jsx` (misingnoglic/graph-algo-vis).

The engine is the `GraphSearch` class: `buildAdjacency`, `getHeuristic`, the
unidirectional loop `run` (BFS / DFS / Dijkstra / AStar), the bidirectional
loop `runBiBFS`, and the path reconstruction `getPath` in the component.
All definitions below are shallow embeddings of that JavaScript, with:

* JavaScript objects used as maps (`parents`, `adj`) modelled as association
  lists whose assignment replaces an existing binding in place (JS object
  key-update semantics); lookup is first match (keys stay unique).
* JavaScript `Set` modelled as an insertion-ordered duplicate-free list.
* A thrown JavaScript exception (`TypeError` on an `undefined` dereference)
  modelled as `Option.none` at the top level.
* The unbounded `while` loops driven by a fuel parameter.  The unidirectional
  loop is intrinsically bounded by `MAX_ITERATIONS`, so fuel
  `MAX_ITERATIONS + 1` makes fuel exhaustion unreachable; the bidirectional
  loop performs at most `1 + 2 * edges.length` iterations, so its fuel also
  makes exhaustion unreachable on well-formed graphs.
* `Math.floor (Math.hypot …)` on the integer coordinates this program uses is
  `Nat.sqrt` of the squared distance.
* Node labels in this program are single characters, so `localeCompare`
  ordering is `Char` ordering.
-/

namespace GraphVis

/-- `status` field of a snapshot: 'exploring', 'found', 'failed', 'limit_reached'. -/
inductive Status where
  | exploring
  | found
  | failed
  | limit_reached
deriving DecidableEq, Repr

/-- `side` tag of bidirectional frontier entries and of `activeSide`. -/
inductive Side where
  | fromStart
  | fromEnd
deriving DecidableEq, Repr

/-- The `type` argument of `GraphSearch`. -/
inductive Strategy where
  | BFS
  | DFS
  | Dijkstra
  | AStar
  | BiBFS
deriving DecidableEq, Repr

/-- `options.heuristicType`. -/
inductive HeuristicType where
  | euclidean
  | preset
  | zero
deriving DecidableEq, Repr

/-- The `options` bag `{ checkDuplicates, heuristicType }`. -/
structure Options where
  checkDuplicates : Bool
  heuristicType : HeuristicType
deriving DecidableEq, Repr

/-- A graph node `{ id, x, y, label, h }`; `h` is optional. -/
structure Node where
  id : Nat
  x : Int
  y : Int
  label : Char
  h : Option Int := none
deriving DecidableEq, Repr

/-- A graph edge `{ source, target, weight }`. -/
structure Edge where
  source : Nat
  target : Nat
  weight : Int
deriving DecidableEq, Repr

/-- An adjacency entry `{ to, weight }` (the JS field `to` is `toId` here,
`to` being a reserved token). -/
structure AdjEntry where
  toId : Nat
  weight : Int
deriving DecidableEq, Repr

/-- A frontier item of the unidirectional loop
`{ id, cost, priority, h, pathLength }`; the initial seed and the BFS/DFS
goal push carry no `h` field. -/
structure FrontierItem where
  id : Nat
  cost : Int
  priority : Int
  h : Option Int := none
  pathLength : Nat
deriving DecidableEq, Repr

/-- A queue item as recorded in a snapshot.  Unidirectional items carry
`cost`/`priority`/`pathLength` (and possibly `h`); bidirectional items carry
only `id` and `side`. -/
structure QItem where
  id : Nat
  cost : Option Int := none
  priority : Option Int := none
  h : Option Int := none
  pathLength : Option Nat := none
  side : Option Side := none
deriving DecidableEq, Repr

/-- A recorded snapshot `{ queue, visited, parents, current, status }` plus
the bidirectional-only `activeSide` and `intersect`. -/
structure Snapshot where
  queue : List QItem
  visited : List Nat
  parents : List (Nat × Nat)
  current : Option Nat
  status : Status
  activeSide : Option Side := none
  intersect : Option Nat := none
deriving DecidableEq, Repr

/-- The `MAX_ITERATIONS` safety brake. -/
def MAX_ITERATIONS : Nat := 1000

/-! ## Association-list maps with JS object semantics -/

/-- Lookup of a JS object field: first (unique) matching key. -/
def pLookup (m : List (Nat × Nat)) (k : Nat) : Option Nat :=
  (m.find? (fun p => p.1 = k)).map Prod.snd

/-- Assignment `m[k] = v` on a JS object: replace the binding in place if the
key exists, otherwise append it. -/
def pset (m : List (Nat × Nat)) (k : Nat) (v : Nat) : List (Nat × Nat) :=
  match m with
  | [] => [(k, v)]
  | p :: rest => if p.1 = k then (k, v) :: rest else p :: pset rest k v

/-- Object spread `{...a, ...b}`: `b`'s bindings assigned over a copy of `a`. -/
def pmerge (a b : List (Nat × Nat)) : List (Nat × Nat) :=
  b.foldl (fun m p => pset m p.1 p.2) a

/-- `Set.add`: append if not already present. -/
def vadd (v : List Nat) (x : Nat) : List Nat :=
  if x ∈ v then v else v ++ [x]

/-- `new Set([...a, ...b])`: add all of `b` after all of `a`. -/
def mergeSet (a b : List Nat) : List Nat :=
  b.foldl vadd a

/-- Adjacency object: node id to its adjacency array. -/
abbrev Adj := List (Nat × List AdjEntry)

/-- Lookup `adj[k]`; `none` is JS `undefined`. -/
def aget (adj : Adj) (k : Nat) : Option (List AdjEntry) :=
  (adj.find? (fun p => p.1 = k)).map Prod.snd

/-- Assignment `adj[k] = v`. -/
def aset (adj : Adj) (k : Nat) (v : List AdjEntry) : Adj :=
  match adj with
  | [] => [(k, v)]
  | p :: rest => if p.1 = k then (k, v) :: rest else p :: aset rest k v

/-! ## Stable sorting (JS `Array.prototype.sort` is stable) -/

/-- Insert `x` after every element `y` with `le y x`; the insertion step of a
stable insertion sort. -/
def insOrd (le : α → α → Bool) (x : α) : List α → List α
  | [] => [x]
  | y :: ys => if le y x then y :: insOrd le x ys else x :: y :: ys

/-- Stable ascending sort: the unique output of any stable comparison sort,
hence the output of the JS engine's stable `Array.prototype.sort`. -/
def stableSort (le : α → α → Bool) (l : List α) : List α :=
  l.foldl (fun acc x => insOrd le x acc) []

/-! ## Heuristic provider and adjacency construction -/

/-- `Math.floor (Math.hypot (a.x - b.x) (a.y - b.y))` on integer coordinates. -/
def distFloor (a b : Node) : Int :=
  Int.ofNat (Nat.sqrt (((a.x - b.x) ^ 2 + (a.y - b.y) ^ 2).toNat))

/-- `GraphSearch.getHeuristic`.  `none` models the JS `TypeError` thrown when
`nodes.find` returns `undefined` and is dereferenced: on the queried node
always, on the goal only when the Euclidean branch is reached. -/
def getHeuristic (nodes : List Node) (endId : Nat) (ht : HeuristicType)
    (nodeId : Nat) : Option Int :=
  match nodes.find? (fun n => n.id = nodeId) with
  | none => none
  | some node =>
    if ht = .preset ∧ node.h ≠ none then node.h
    else if ht = .zero then some 0
    else (nodes.find? (fun n => n.id = endId)).map (fun goal => distFloor node goal)

/-- The `this.nodes.forEach(n => adj[n.id] = [])` initialisation of
`buildAdjacency`. -/
def initAdj (nodes : List Node) : Adj :=
  nodes.foldl (fun m n => aset m n.id []) []

/-- The per-edge body of `buildAdjacency`: push `{to: e.target, weight}` onto
`adj[e.source]` and `{to: e.source, weight}` onto `adj[e.target]`.  `none`
models the `TypeError` thrown by `.push` on an `undefined` slot (an edge
endpoint that is not a node id). -/
def adjStep (m : Adj) (e : Edge) : Option Adj :=
  match aget m e.source with
  | none => none
  | some ls =>
    match aget (aset m e.source (ls ++ [⟨e.target, e.weight⟩])) e.target with
    | none => none
    | some lt =>
      some (aset (aset m e.source (ls ++ [⟨e.target, e.weight⟩])) e.target
        (lt ++ [⟨e.source, e.weight⟩]))

/-- `GraphSearch.buildAdjacency`: initialise every node id to `[]`, then push
both directions of every edge. -/
def buildAdjacency (nodes : List Node) (edges : List Edge) : Option Adj :=
  edges.foldlM adjStep (initAdj nodes)

/-- Label of a node id; all ids resolved during a run exist (they come from
`buildAdjacency`, which has checked them), so the default is unreachable. -/
def labelOf (nodes : List Node) (id : Nat) : Char :=
  ((nodes.find? (fun n => n.id = id)).map Node.label).getD 'A'

/-- The neighbor sort `(a, b) => labelA.localeCompare(labelB)`. -/
def sortNeighbors (nodes : List Node) (l : List AdjEntry) : List AdjEntry :=
  stableSort (fun a b => decide (labelOf nodes a.toId ≤ labelOf nodes b.toId)) l

/-! ## The unidirectional loop (`GraphSearch.run`) -/

/-- A frontier item as it appears in a snapshot's deep-copied queue. -/
def FrontierItem.toQ (f : FrontierItem) : QItem :=
  ⟨f.id, some f.cost, some f.priority, f.h, some f.pathLength, none⟩

/-- `this.snapshot(queue, visited, parents, current, status)`: a value copy of
the live state. -/
def mkSnap (queue : List FrontierItem) (visited : List Nat)
    (parents : List (Nat × Nat)) (current : Option Nat) (status : Status) : Snapshot :=
  ⟨queue.map FrontierItem.toQ, visited, parents, current, status, none, none⟩

/-- Outcome of the neighbor `for` loop of one iteration of `run`. -/
inductive NbRes where
  | halt (hist : List Snapshot)
  | cont (queue : List FrontierItem) (parents : List (Nat × Nat))
  | crash
deriving Repr

/-- The `for (let edge of neighbors)` body of `GraphSearch.run`: skip test,
parent assignment, BFS/DFS push-time goal test, heuristic, push.
`crash` models the `TypeError` a failing `getHeuristic` would throw. -/
def processNeighbors (nodes : List Node) (endId : Nat) (ty : Strategy)
    (opts : Options) (cur : FrontierItem) (visited : List Nat)
    (hist : List Snapshot) :
    List AdjEntry → List FrontierItem → List (Nat × Nat) → NbRes
  | [], queue, parents => .cont queue parents
  | e :: rest, queue, parents =>
    let neighborId := e.toId
    let newCost := cur.cost + e.weight
    let newPathLength := cur.pathLength + 1
    let inFrontier := queue.any (fun it => it.id = neighborId)
    let shouldSkip := opts.checkDuplicates && (decide (neighborId ∈ visited) || inFrontier)
    if shouldSkip then
      processNeighbors nodes endId ty opts cur visited hist rest queue parents
    else
      let parents := pset parents neighborId cur.id
      if ¬ (ty = .Dijkstra ∨ ty = .AStar) ∧ neighborId = endId then
        let queue := queue ++ [⟨neighborId, newCost, 0, none, newPathLength⟩]
        .halt (hist ++ [mkSnap queue visited parents (some neighborId) .found])
      else
        match (if ty = .AStar then getHeuristic nodes endId opts.heuristicType neighborId
               else some 0) with
        | none => .crash
        | some hValue =>
          let queue := queue ++
            [⟨neighborId, newCost, newCost + hValue, some hValue, newPathLength⟩]
          processNeighbors nodes endId ty opts cur visited hist rest queue parents

/-- Live state of the `while` loop of `GraphSearch.run`. -/
structure RunSt where
  queue : List FrontierItem
  visited : List Nat
  parents : List (Nat × Nat)
  history : List Snapshot
  iterations : Nat
deriving Repr

/-- Result of one pass through the body of a `while` loop. -/
inductive StepRes (σ : Type) where
  | done (h : List Snapshot)
  | next (st : σ)
  | crash
deriving Repr

/-- One-to-one embedding of one pass through the `while (queue.length > 0)`
loop of `GraphSearch.run`, including the loop condition itself (a false
condition yields the trailing `failed` snapshot) — the loop body never reads
`startId`, only `endId`. -/
def runStep (nodes : List Node) (adj : Adj) (endId : Nat) (ty : Strategy)
    (opts : Options) (st : RunSt) : StepRes RunSt :=
  match st.queue with
  | [] => .done (st.history ++ [mkSnap st.queue st.visited st.parents none .failed])
  | q1 :: qrest =>
    let iterations := st.iterations + 1
    if MAX_ITERATIONS < iterations then
      .done (st.history ++ [mkSnap st.queue st.visited st.parents none .limit_reached])
    else
      let queue :=
        if ty = .Dijkstra ∨ ty = .AStar then
          stableSort (fun a b => decide (a.priority ≤ b.priority)) (q1 :: qrest)
        else q1 :: qrest
      match (if ty = .DFS then queue.getLast? else queue.head?) with
      | none => .crash
      | some headItem =>
        let hist := st.history ++
          [mkSnap queue st.visited st.parents (some headItem.id) .exploring]
        let queue1 := if ty = .DFS then queue.dropLast else queue.tail
        if opts.checkDuplicates && decide (headItem.id ∈ st.visited) then
          .next ⟨queue1, st.visited, st.parents, hist, iterations⟩
        else
          let visited := vadd st.visited headItem.id
          if (ty = .Dijkstra ∨ ty = .AStar) ∧ headItem.id = endId then
            .done (hist ++ [mkSnap queue1 visited st.parents (some headItem.id) .found])
          else
            let nbs := sortNeighbors nodes ((aget adj headItem.id).getD [])
            let nbs := if ty = .DFS then nbs.reverse else nbs
            match processNeighbors nodes endId ty opts headItem visited hist
                nbs queue1 st.parents with
            | .halt h => .done h
            | .crash => .crash
            | .cont q p => .next ⟨q, visited, p, hist, iterations⟩

/-- The `while (queue.length > 0)` loop of `GraphSearch.run`: iterate
`runStep`.  The fuel only bounds the recursion; called with fuel
`MAX_ITERATIONS + 1 - iterations` the `0` case is unreachable because the
iteration counter stops the loop first. -/
def runLoop (nodes : List Node) (adj : Adj) (endId : Nat) (ty : Strategy)
    (opts : Options) : Nat → RunSt → Option (List Snapshot)
  | 0, _ => none
  | fuel + 1, st =>
    match runStep nodes adj endId ty opts st with
    | .done h => some h
    | .crash => none
    | .next st1 => runLoop nodes adj endId ty opts fuel st1

/-! ## The bidirectional loop (`GraphSearch.runBiBFS`) -/

/-- The snapshot queue of `runBiBFS`:
`[...qStart.map(id=>({id,side:'start'})), ...qEnd.map(id=>({id,side:'end'}))]`. -/
def biQueue (qStart qEnd : List Nat) : List QItem :=
  qStart.map (fun id => ⟨id, none, none, none, none, some .fromStart⟩) ++
    qEnd.map (fun id => ⟨id, none, none, none, none, some .fromEnd⟩)

/-- One side's expansion `adj[curr].forEach(...)`: returns the updated
visited set, parent map and queue. -/
def expand (adj : Adj) (curr : Nat) (visited : List Nat)
    (parents : List (Nat × Nat)) (q : List Nat) :
    List Nat × List (Nat × Nat) × List Nat :=
  ((aget adj curr).getD []).foldl
    (fun acc e =>
      if e.toId ∈ acc.1 then acc
      else (acc.1 ++ [e.toId], pset acc.2.1 e.toId curr, acc.2.2 ++ [e.toId]))
    (visited, parents, q)

/-- Live state of the `while` loop of `runBiBFS`. -/
structure BiSt where
  qStart : List Nat
  qEnd : List Nat
  visitedStart : List Nat
  visitedEnd : List Nat
  parentStart : List (Nat × Nat)
  parentEnd : List (Nat × Nat)
  history : List Snapshot
deriving Repr

/-- One-to-one embedding of one pass through the
`while (qStart.length > 0 && qEnd.length > 0)` loop of `runBiBFS`,
including the loop condition itself (a false condition stops with the
history as recorded — no trailing snapshot).  The source pushes an
`exploring` snapshot and, on intersection, mutates the snapshot it just
pushed to `found`; here the final field values are computed before the
push, which records the same snapshot.  The loop body reads neither
`startId`, `endId` nor `this.options`. -/
def biStep (adj : Adj) (st : BiSt) : StepRes BiSt :=
  match st.qStart, st.qEnd with
  | s1 :: sRest, e1 :: eRest =>
    let found1 := decide (s1 ∈ st.visitedEnd)
    let snap1 : Snapshot :=
      ⟨biQueue sRest (e1 :: eRest), mergeSet st.visitedStart st.visitedEnd,
        pmerge st.parentStart st.parentEnd, some s1,
        if found1 then .found else .exploring, some .fromStart,
        if found1 then some s1 else none⟩
    if found1 then .done (st.history ++ [snap1])
    else
      let exS := expand adj s1 st.visitedStart st.parentStart sRest
      let found2 := decide (e1 ∈ exS.1)
      let snap2 : Snapshot :=
        ⟨biQueue exS.2.2 eRest, mergeSet exS.1 st.visitedEnd,
          pmerge exS.2.1 st.parentEnd, some e1,
          if found2 then .found else .exploring, some .fromEnd,
          if found2 then some e1 else none⟩
      if found2 then .done (st.history ++ [snap1, snap2])
      else
        let exE := expand adj e1 st.visitedEnd st.parentEnd eRest
        .next ⟨exS.2.2, exE.2.2, exS.1, exE.1, exS.2.1, exE.2.1,
          st.history ++ [snap1, snap2]⟩
  | _, _ => .done st.history

/-- The `while (qStart.length > 0 && qEnd.length > 0)` loop of `runBiBFS`:
iterate `biStep`.  No `MAX_ITERATIONS` check exists in this loop; it
terminates because each iteration dequeues from both queues and enqueues
only never-visited nodes, so fuel `2 + 2 * edges.length` (one per possible
enqueue, plus the final loop-condition check) cannot run out on graphs that
passed `buildAdjacency`. -/
def biLoop (adj : Adj) : Nat → BiSt → Option (List Snapshot)
  | 0, _ => none
  | fuel + 1, st =>
    match biStep adj st with
    | .done h => some h
    | .crash => none
    | .next st1 => biLoop adj fuel st1

/-! ## The engine entry point (`GraphSearch` constructor + `run`) -/

/-- The whole `GraphSearch` invocation: build the adjacency, dispatch to the
bidirectional loop or run the unidirectional skeleton, and return the
recorded history.  `none` models a thrown `TypeError` (malformed adjacency or
failing heuristic lookup). -/
def runSearch (nodes : List Node) (edges : List Edge) (startId endId : Nat)
    (ty : Strategy) (opts : Options) : Option (List Snapshot) :=
  match buildAdjacency nodes edges with
  | none => none
  | some adj =>
    if ty = .BiBFS then
      biLoop adj (2 + 2 * edges.length)
        ⟨[startId], [endId], [startId], [endId], [], [], []⟩
    else
      let queue : List FrontierItem := [⟨startId, 0, 0, none, 0⟩]
      if startId = endId then
        some [mkSnap queue [] [] (some startId) .found]
      else
        runLoop nodes adj endId ty opts (MAX_ITERATIONS + 1) ⟨queue, [], [], [], 0⟩

/-! ## Path reconstruction (`getPath` in the component) -/

/-- The `while (curr !== undefined && curr !== graph.start)` walk of the
standard branch of `getPath`, in push order (goal first). -/
def stdWalkAux (parents : List (Nat × Nat)) (startId : Nat) :
    Nat → Nat → List Nat
  | 0, _ => []
  | fuel + 1, curr =>
    if curr = startId then []
    else
      curr ::
        match pLookup parents curr with
        | none => []
        | some p => stdWalkAux parents startId fuel p

/-- The bidirectional branch's `while (curr !== graph.start)` walk with its
`if (!curr) break`, in push order (intersection first).  `!curr` is true both
for `undefined` and for the node id `0`, so a parent of `0` also stops the
walk. -/
def biWalkAux (parents : List (Nat × Nat)) (startId : Nat) :
    Nat → Nat → List Nat
  | 0, _ => []
  | fuel + 1, curr =>
    if curr = startId then []
    else
      curr ::
        match pLookup parents curr with
        | none => []
        | some p => if p = 0 then [] else biWalkAux parents startId fuel p

/-- `getPath()` of the component, evaluated against one snapshot.  The
standard branch pushes then appends start (goal-to-start order); the BiBFS
branch unshifts (so the walk is reversed) and unshifts start. -/
def getPathApp (algoType : Strategy) (startId endId : Nat) (snap : Snapshot)
    (fuel : Nat) : List Nat :=
  if snap.status ≠ .found then []
  else if algoType = .BiBFS ∧ snap.intersect ≠ none then
    match snap.intersect with
    | some i => startId :: (biWalkAux snap.parents startId fuel i).reverse
    | none => []
  else stdWalkAux snap.parents startId fuel endId ++ [startId]

/-- Sum of matched edge weights along consecutive pairs of a path, as the
component's `currentCost` loop computes it (`edge?.weight || 0`). -/
def pathCost (edges : List Edge) : List Nat → Int
  | [] => 0
  | [_] => 0
  | u :: v :: rest =>
    (match edges.find? (fun e =>
        (e.source = u ∧ e.target = v) ∨ (e.target = u ∧ e.source = v)) with
      | some e => e.weight
      | none => 0) + pathCost edges (v :: rest)

/-! ## Stated properties of runs -/

/-- The status discipline of a history: zero or more `exploring` snapshots
followed by exactly one terminal (non-`exploring`) snapshot, with nothing
after it. -/
def GoodHistory (h : List Snapshot) : Prop :=
  ∃ pre lastS, h = pre ++ [lastS] ∧ (∀ s ∈ pre, s.status = .exploring) ∧
    lastS.status ≠ .exploring

/-- Statuses of a bidirectional history: every snapshot before the last is
`exploring`, and the only possible terminal status is `found`, in last
position; a run whose frontier empties without an intersection therefore
ends on an `exploring` snapshot with no terminal snapshot at all. -/
def BiStatusOK (h : List Snapshot) : Prop :=
  (∀ s ∈ h.dropLast, s.status = .exploring) ∧
    (∀ s ∈ h, s.status = .exploring ∨ s.status = .found)

/-- Pop-time goal discipline (Dijkstra / AStar): the run ends `found` exactly
when the goal was settled (entered `visited`, which happens only at pop), the
`found` snapshot's `current` is the goal, and no earlier snapshot has the
goal settled. -/
def PopFoundProp (endId : Nat) (h : List Snapshot) : Prop :=
  (∀ s ∈ h.dropLast, s.status = .exploring) ∧
  (∀ lastS, h.getLast? = some lastS →
    (lastS.status = .found →
      lastS.current = some endId ∧ endId ∈ lastS.visited ∧
        ∀ s ∈ h.dropLast, endId ∉ s.visited) ∧
    (lastS.status ≠ .found → ∀ s ∈ h, endId ∉ s.visited))

/-- Push-time goal discipline (BFS / DFS): the run ends `found` exactly when
the goal was pushed; the `found` snapshot shows the goal as the last pushed
queue item, still unsettled, and no earlier snapshot has the goal in its
queue or settled. -/
def PushFoundProp (endId : Nat) (h : List Snapshot) : Prop :=
  (∀ s ∈ h.dropLast, s.status = .exploring) ∧
  (∀ lastS, h.getLast? = some lastS →
    (lastS.status = .found →
      lastS.current = some endId ∧ endId ∉ lastS.visited ∧
        (lastS.queue.getLast?).map QItem.id = some endId ∧
        ∀ s ∈ h.dropLast, endId ∉ s.visited ∧ ∀ q ∈ s.queue, q.id ≠ endId) ∧
    (lastS.status ≠ .found →
      ∀ s ∈ h, endId ∉ s.visited ∧ ∀ q ∈ s.queue, q.id ≠ endId))

/-- The parents-map invariant of one snapshot: under duplicate suppression no
entry keys the start node, and every entry's value is a node already settled
in that snapshot. -/
def ParentsOK (startId : Nat) (dup : Bool) (s : Snapshot) : Prop :=
  ∀ pr ∈ s.parents, (dup = true → pr.1 ≠ startId) ∧ pr.2 ∈ s.visited

/-- Number of `exploring` snapshots of a history, i.e. the number of pop
iterations the loop performed. -/
def exploringCount (h : List Snapshot) : Nat :=
  h.countP (fun s => decide (s.status = .exploring))

/-- Relation between the queue/parents before and after the neighbor loop of
one iteration: every parent entry is an old one or keys a node not yet
settled (under suppression) with the just-settled node as value, and every
queue item is an old one or (for the push-tested strategies) not the goal. -/
def pnPost (ty : Strategy) (opts : Options) (endId : Nat) (cur : FrontierItem)
    (visited : List Nat) (q q2 : List FrontierItem)
    (p p2 : List (Nat × Nat)) : Prop :=
  (∀ pr ∈ p2, pr ∈ p ∨
    (pr.2 = cur.id ∧ (opts.checkDuplicates = true → pr.1 ∉ visited))) ∧
  (∀ it ∈ q2, it ∈ q ∨ (¬(ty = .Dijkstra ∨ ty = .AStar) → it.id ≠ endId))

/-- Well-keyed adjacency: every key and every entry's `to` is a node id. -/
def AdjClosed (nodes : List Node) (m : Adj) : Prop :=
  (∀ k, (aget m k).isSome = true → nodes.any (fun n => n.id = k) = true) ∧
  (∀ k l, aget m k = some l →
    ∀ a ∈ l, nodes.any (fun n => n.id = a.toId) = true)

/-- Symmetric adjacency: every stored direction has its reverse stored. -/
def AdjSym (m : Adj) : Prop :=
  ∀ u w, (∃ a ∈ (aget m u).getD [], a.toId = w) →
    ∃ b ∈ (aget m w).getD [], b.toId = u

/-- Every heuristic query on an existing node succeeds (no `TypeError`). -/
def HeurOK (nodes : List Node) (endId : Nat) (ht : HeuristicType) : Prop :=
  ∀ n ∈ nodes, getHeuristic nodes endId ht n.id ≠ none

/-- The single snapshot of a unidirectional run with `startId === endId`:
status `found`, frontier still holding the seed item. -/
def selfFoundSnapUni (s : Nat) : Snapshot :=
  ⟨[⟨s, some 0, some 0, none, some 0, none⟩], [], [], some s, .found, none, none⟩

/-- The single snapshot of a `BiBFS` run with `startId === endId`: the first
iteration immediately sees the start in the end-side visited set; the
snapshot keeps the end-side queue entry. -/
def selfFoundSnapBi (s : Nat) : Snapshot :=
  ⟨[⟨s, none, none, none, none, some .fromEnd⟩], [s], [], some s, .found,
    some .fromStart, some s⟩

/-- Loop invariant used for the `runBiBFS` parents-map lemma: the start node
is settled on the start side, both parent maps never key the start node and
take settled values, queued nodes are settled on their own side, the start
node's whole adjacency is settled on the start side unless the start frontier
is still the seed, and every recorded snapshot already satisfies the parents
discipline. -/
def BiPInv (adj : Adj) (startId : Nat) (st : BiSt) : Prop :=
  startId ∈ st.visitedStart ∧
  (∀ pr ∈ st.parentStart, pr.1 ≠ startId ∧ pr.2 ∈ st.visitedStart) ∧
  (∀ pr ∈ st.parentEnd, pr.1 ≠ startId ∧ pr.2 ∈ st.visitedEnd) ∧
  (∀ x ∈ st.qStart, x ∈ st.visitedStart) ∧
  (∀ x ∈ st.qEnd, x ∈ st.visitedEnd) ∧
  (st.qStart = [startId] ∨
    ∀ a ∈ (aget adj startId).getD [], a.toId ∈ st.visitedStart) ∧
  (∀ s ∈ st.history, ∀ pr ∈ s.parents, pr.1 ≠ startId ∧ pr.2 ∈ s.visited)

/-! ## Concrete graphs used by counterexamples and witnesses -/

/-- A single node with id 0. -/
def trivNode : Node := ⟨0, 0, 0, 'S', none⟩

/-- Two nodes, no edges: a disconnected graph. -/
def discNodes : List Node := [⟨0, 0, 0, 'S', none⟩, ⟨1, 10, 0, 'G', none⟩]

/-- Two nodes at Euclidean distance 5 (3-4-5 triangle), neither with a fixed
`h` value. -/
def c3Nodes : List Node := [⟨0, 0, 0, 'S', none⟩, ⟨1, 3, 4, 'G', none⟩]

/-- Labelled path `A — B — C`, ids `0 — 1 — 2`. -/
def c6Nodes : List Node :=
  [⟨0, 0, 0, 'A', none⟩, ⟨1, 10, 0, 'B', none⟩, ⟨2, 20, 0, 'C', none⟩]

/-- Edges of the path `0 — 1 — 2`. -/
def c6Edges : List Edge := [⟨0, 1, 1⟩, ⟨1, 2, 1⟩]

/-- Path graph `0 — 1 — 2 — 3 — 4`. -/
def p5Nodes : List Node :=
  [⟨0, 0, 0, 'A', none⟩, ⟨1, 10, 0, 'B', none⟩, ⟨2, 20, 0, 'C', none⟩,
    ⟨3, 30, 0, 'D', none⟩, ⟨4, 40, 0, 'E', none⟩]

/-- Edges of the path `0 — 1 — 2 — 3 — 4`, unit weights. -/
def p5Edges : List Edge := [⟨0, 1, 1⟩, ⟨1, 2, 1⟩, ⟨2, 3, 1⟩, ⟨3, 4, 1⟩]

/-- The `PRESETS.nonAdmissible` node list: `S A B C G`, node `A` carrying the
overestimating fixed heuristic 1000. -/
def naNodes : List Node :=
  [⟨0, 50, 300, 'S', some 5⟩, ⟨1, 200, 150, 'A', some 1000⟩,
    ⟨2, 200, 450, 'B', some 0⟩, ⟨3, 400, 300, 'C', some 0⟩,
    ⟨4, 550, 300, 'G', some 0⟩]

/-- The `PRESETS.nonAdmissible` edge list. -/
def naEdges : List Edge :=
  [⟨0, 1, 1⟩, ⟨0, 2, 2⟩, ⟨1, 3, 2⟩, ⟨2, 3, 100⟩, ⟨3, 4, 1⟩]

/-- Two nodes joined by one edge, for witness runs. -/
def wNodes : List Node := [⟨0, 0, 0, 'A', none⟩, ⟨1, 3, 4, 'B', none⟩]

/-- The single edge of the witness graph. -/
def wEdges : List Edge := [⟨0, 1, 5⟩]

/-! ## Lemmas about the list helpers -/

theorem mem_insOrd {α : Type _} (le : α → α → Bool) (x a : α) :
    ∀ l : List α, a ∈ insOrd le x l ↔ a = x ∨ a ∈ l
  | [] => by simp [insOrd]
  | y :: ys => by
    simp only [insOrd]
    split
    · simp only [List.mem_cons, mem_insOrd le x a ys]
      tauto
    · simp only [List.mem_cons]

theorem length_insOrd {α : Type _} (le : α → α → Bool) (x : α) :
    ∀ l : List α, (insOrd le x l).length = l.length + 1
  | [] => rfl
  | y :: ys => by
    simp only [insOrd]
    split
    · simp [length_insOrd le x ys]
    · simp

theorem mem_foldl_insOrd {α : Type _} (le : α → α → Bool) (a : α) :
    ∀ (l acc : List α),
      a ∈ l.foldl (fun acc x => insOrd le x acc) acc ↔ a ∈ l ∨ a ∈ acc
  | [], acc => by simp
  | x :: xs, acc => by
    rw [List.foldl_cons, mem_foldl_insOrd le a xs]
    rw [mem_insOrd]
    simp only [List.mem_cons]
    tauto

theorem mem_stableSort {α : Type _} (le : α → α → Bool) (a : α) (l : List α) :
    a ∈ stableSort le l ↔ a ∈ l := by
  unfold stableSort
  rw [mem_foldl_insOrd]
  simp

theorem length_foldl_insOrd {α : Type _} (le : α → α → Bool) :
    ∀ (l acc : List α),
      (l.foldl (fun acc x => insOrd le x acc) acc).length = l.length + acc.length
  | [], acc => by simp
  | x :: xs, acc => by
    rw [List.foldl_cons, length_foldl_insOrd le xs]
    rw [length_insOrd]
    simp only [List.length_cons]
    omega

theorem length_stableSort {α : Type _} (le : α → α → Bool) (l : List α) :
    (stableSort le l).length = l.length := by
  unfold stableSort
  rw [length_foldl_insOrd]
  simp

theorem stableSort_ne_nil {α : Type _} (le : α → α → Bool) (l : List α)
    (h : l ≠ []) : stableSort le l ≠ [] := by
  intro hs
  apply h
  have hl := length_stableSort le l
  rw [hs] at hl
  exact List.length_eq_zero.mp hl.symm

theorem mem_vadd (v : List Nat) (x a : Nat) : a ∈ vadd v x ↔ a ∈ v ∨ a = x := by
  unfold vadd
  split
  · rename_i hx
    constructor
    · exact Or.inl
    · rintro (h | rfl)
      · exact h
      · exact hx
  · simp

theorem self_mem_vadd (v : List Nat) (x : Nat) : x ∈ vadd v x := by
  rw [mem_vadd]
  exact Or.inr rfl

theorem mem_vadd_of_mem (v : List Nat) (x a : Nat) (h : a ∈ v) : a ∈ vadd v x := by
  rw [mem_vadd]
  exact Or.inl h

theorem mem_mergeSet (a : Nat) :
    ∀ (b s : List Nat), a ∈ mergeSet s b ↔ a ∈ s ∨ a ∈ b
  | [], s => by simp [mergeSet]
  | x :: xs, s => by
    show a ∈ mergeSet (vadd s x) xs ↔ _
    rw [mem_mergeSet a xs, mem_vadd]
    simp only [List.mem_cons]
    tauto

theorem mem_pset (k v : Nat) :
    ∀ (m : List (Nat × Nat)) (p : Nat × Nat), p ∈ pset m k v → p ∈ m ∨ p = (k, v)
  | [], p => by simp [pset]
  | q :: rest, p => by
    simp only [pset]
    split
    · intro h
      rcases List.mem_cons.mp h with h | h
      · exact Or.inr h
      · exact Or.inl (List.mem_cons_of_mem q h)
    · intro h
      rcases List.mem_cons.mp h with h | h
      · exact Or.inl (by rw [h]; exact List.mem_cons_self q rest)
      · rcases mem_pset k v rest p h with h2 | h2
        · exact Or.inl (List.mem_cons_of_mem q h2)
        · exact Or.inr h2

theorem mem_pmerge (p : Nat × Nat) :
    ∀ (b a : List (Nat × Nat)), p ∈ pmerge a b → p ∈ a ∨ p ∈ b
  | [], a => by simp [pmerge]
  | q :: qs, a => by
    intro h
    have h2 : p ∈ pmerge (pset a q.1 q.2) qs := h
    rcases mem_pmerge p qs (pset a q.1 q.2) h2 with h3 | h3
    · rcases mem_pset q.1 q.2 a p h3 with h4 | h4
      · exact Or.inl h4
      · refine Or.inr (List.mem_cons.mpr (Or.inl ?_))
        rw [h4]
    · exact Or.inr (List.mem_cons_of_mem q h3)

theorem find?_fst_cons {β : Type _} (q : Nat × β) (rest : List (Nat × β)) (k : Nat) :
    List.find? (fun p => p.1 = k) (q :: rest) =
      if q.1 = k then some q else List.find? (fun p => p.1 = k) rest := by
  by_cases h : q.1 = k
  · rw [if_pos h]
    exact List.find?_cons_of_pos _ (by simpa using h)
  · rw [if_neg h]
    exact List.find?_cons_of_neg _ (by simpa using h)

theorem aget_cons (q : Nat × List AdjEntry) (rest : Adj) (k : Nat) :
    aget (q :: rest) k = if q.1 = k then some q.2 else aget rest k := by
  unfold aget
  rw [find?_fst_cons]
  by_cases h : q.1 = k <;> simp [h]

theorem aget_aset (k' k : Nat) (v : List AdjEntry) :
    ∀ m : Adj, aget (aset m k v) k' = if k' = k then some v else aget m k'
  | [] => by
    show aget [(k, v)] k' = _
    rw [aget_cons]
    by_cases h : k' = k
    · simp [h]
    · have h1 : ¬ ((k, v).1 = k') := fun hc => h hc.symm
      simp [h, h1]
  | q :: rest => by
    simp only [aset]
    split
    · rename_i hq
      rw [aget_cons, aget_cons]
      by_cases h : k' = k
      · simp [h]
      · have h1 : ¬ ((k, v).1 = k') := fun hc => h hc.symm
        have h3 : ¬ (q.1 = k') := by
          rw [hq]
          exact fun hc => h hc.symm
        simp [h, h1, h3]
    · rename_i hq
      rw [aget_cons, aget_cons, aget_aset k' k v rest]
      by_cases h2 : q.1 = k'
      · have hk : ¬ (k' = k) := by
          intro hc
          apply hq
          rw [h2, hc]
        simp [h2, hk]
      · simp [h2]

/-! ## Lemmas about adjacency construction -/

theorem aget_initAdj_aux (k : Nat) :
    ∀ (nodes : List Node) (acc : Adj),
      aget (nodes.foldl (fun m n => aset m n.id []) acc) k =
        if nodes.any (fun n => n.id = k) then some [] else aget acc k
  | [], acc => by simp
  | n :: rest, acc => by
    rw [List.foldl_cons, aget_initAdj_aux k rest, aget_aset]
    simp only [List.any_cons]
    by_cases h : n.id = k
    · have h1 : k = n.id := h.symm
      have h2 : (decide (n.id = k) || rest.any fun n => decide (n.id = k)) = true := by
        simp [h]
      rw [if_pos h1, if_pos h2]
      split <;> rfl
    · have h1 : ¬ (k = n.id) := fun hc => h hc.symm
      rw [if_neg h1]
      by_cases hra : (rest.any fun x => decide (x.id = k)) = true
      · rw [if_pos hra, if_pos (by simp [h, hra])]
      · rw [if_neg hra, if_neg (by simp [h, hra])]

theorem aget_initAdj (nodes : List Node) (k : Nat) :
    aget (initAdj nodes) k =
      if nodes.any (fun n => n.id = k) then some [] else none := by
  unfold initAdj
  rw [aget_initAdj_aux]
  split <;> rfl

theorem foldlM_adjStep_cons (m : Adj) (e : Edge) (es : List Edge) :
    List.foldlM adjStep m (e :: es) =
      match adjStep m e with
      | none => none
      | some m1 => List.foldlM adjStep m1 es := by
  cases h : adjStep m e <;> simp [List.foldlM_cons, h]

theorem adjStep_eq_none (m : Adj) (e : Edge) (h : adjStep m e = none) :
    aget m e.source = none ∨
      (∃ ls, aget m e.source = some ls ∧
        aget (aset m e.source (ls ++ [⟨e.target, e.weight⟩])) e.target = none) := by
  unfold adjStep at h
  split at h
  · rename_i hs
    exact Or.inl hs
  · rename_i ls hs
    split at h
    · rename_i ht
      exact Or.inr ⟨ls, hs, ht⟩
    · cases h

theorem adjStep_eq_some (m : Adj) (e : Edge) (m' : Adj) (h : adjStep m e = some m') :
    ∃ ls lt, aget m e.source = some ls ∧
      aget (aset m e.source (ls ++ [⟨e.target, e.weight⟩])) e.target = some lt ∧
      m' = aset (aset m e.source (ls ++ [⟨e.target, e.weight⟩])) e.target
        (lt ++ [⟨e.source, e.weight⟩]) := by
  unfold adjStep at h
  split at h
  · cases h
  · rename_i ls hs
    split at h
    · cases h
    · rename_i lt ht
      simp only [Option.some.injEq] at h
      exact ⟨ls, lt, hs, ht, h.symm⟩

theorem adjStep_some_of (m : Adj) (e : Edge) (ls lt : List AdjEntry)
    (hs : aget m e.source = some ls)
    (ht : aget (aset m e.source (ls ++ [⟨e.target, e.weight⟩])) e.target = some lt) :
    adjStep m e = some (aset (aset m e.source (ls ++ [⟨e.target, e.weight⟩]))
      e.target (lt ++ [⟨e.source, e.weight⟩])) := by
  unfold adjStep
  split
  · rename_i hs2
    rw [hs2] at hs
    cases hs
  · rename_i ls2 hs2
    rw [hs2] at hs
    simp only [Option.some.injEq] at hs
    subst hs
    split
    · rename_i ht2
      rw [ht2] at ht
      cases ht
    · rename_i lt2 ht2
      rw [ht2] at ht
      simp only [Option.some.injEq] at ht
      subst ht
      rfl

theorem adjStep_none_of_src (m : Adj) (e : Edge) (hs : aget m e.source = none) :
    adjStep m e = none := by
  unfold adjStep
  split
  · rfl
  · rename_i ls hs2
    rw [hs2] at hs
    cases hs

theorem adjStep_none_of_tgt (m : Adj) (e : Edge) (ls : List AdjEntry)
    (hs : aget m e.source = some ls)
    (ht : aget (aset m e.source (ls ++ [⟨e.target, e.weight⟩])) e.target = none) :
    adjStep m e = none := by
  unfold adjStep
  split
  · rfl
  · rename_i ls2 hs2
    rw [hs2] at hs
    simp only [Option.some.injEq] at hs
    subst hs
    split
    · rfl
    · rename_i lt2 ht2
      rw [ht2] at ht
      cases ht

theorem adjStep_isSome (m : Adj) (e : Edge) (m' : Adj)
    (h : adjStep m e = some m') (k : Nat) :
    (aget m' k).isSome = (aget m k).isSome := by
  obtain ⟨ls, lt, hs, ht, hm⟩ := adjStep_eq_some m e m' h
  have htm : (aget m e.target).isSome = true := by
    rw [aget_aset] at ht
    by_cases h2 : e.target = e.source
    · rw [h2, hs]; rfl
    · rw [if_neg h2] at ht
      rw [ht]; rfl
  rw [hm, aget_aset, aget_aset]
  by_cases h1 : k = e.target
  · rw [if_pos h1, h1, htm]; rfl
  · rw [if_neg h1]
    by_cases h2 : k = e.source
    · rw [if_pos h2, h2, hs]; rfl
    · rw [if_neg h2]

theorem foldlM_adjStep_inv (P : Adj → Prop)
    (hstep : ∀ m e m', P m → adjStep m e = some m' → P m') :
    ∀ (edges : List Edge) (m : Adj), P m →
      ∀ m', List.foldlM adjStep m edges = some m' → P m'
  | [], m, hP, m', h => by
    simp only [List.foldlM_nil, Option.pure_def, Option.some.injEq] at h
    rw [← h]
    exact hP
  | e :: es, m, hP, m', h => by
    rw [foldlM_adjStep_cons] at h
    cases h1 : adjStep m e with
    | none => rw [h1] at h; cases h
    | some m1 =>
      rw [h1] at h
      exact foldlM_adjStep_inv P hstep es m1 (hstep m e m1 hP h1) m' h

theorem foldlM_adjStep_bad (nodes : List Node) :
    ∀ (edges : List Edge) (m : Adj),
      (∀ k, (aget m k).isSome = nodes.any (fun n => n.id = k)) →
      (∃ e ∈ edges, nodes.any (fun n => n.id = e.source) = false ∨
        nodes.any (fun n => n.id = e.target) = false) →
      List.foldlM adjStep m edges = none
  | [], m, hk, hbad => by simp at hbad
  | e :: es, m, hk, hbad => by
    rw [foldlM_adjStep_cons]
    by_cases hbs : nodes.any (fun n => n.id = e.source) = true
    · by_cases hbt : nodes.any (fun n => n.id = e.target) = true
      · -- this edge is fine, so the step succeeds and the bad edge is later
        obtain ⟨ls, hls⟩ : ∃ ls, aget m e.source = some ls := by
          have h1 := hk e.source
          rw [hbs] at h1
          exact Option.isSome_iff_exists.mp h1
        have hm1 : (aget (aset m e.source (ls ++ [⟨e.target, e.weight⟩]))
            e.target).isSome = true := by
          rw [aget_aset]
          by_cases h4 : e.target = e.source
          · rw [if_pos h4]; rfl
          · rw [if_neg h4, hk]
            exact hbt
        obtain ⟨lt, hlt⟩ := Option.isSome_iff_exists.mp hm1
        have hst := adjStep_some_of m e ls lt hls hlt
        rw [hst]
        simp only
        apply foldlM_adjStep_bad nodes es
        · intro k
          rw [adjStep_isSome m e _ hst k]
          exact hk k
        · rcases hbad with ⟨e2, he2, hb2⟩
          rcases List.mem_cons.mp he2 with he2 | he2
          · exfalso
            rw [he2] at hb2
            rcases hb2 with hb2 | hb2
            · rw [hbs] at hb2; cases hb2
            · rw [hbt] at hb2; cases hb2
          · exact ⟨e2, he2, hb2⟩
      · -- target missing: the second push throws
        have hbtf : nodes.any (fun n => n.id = e.target) = false := by
          cases hq : nodes.any (fun n => n.id = e.target)
          · rfl
          · exact absurd hq hbt
        have htn : (aget m e.target).isSome = false := by
          rw [hk, hbtf]
        cases hs : aget m e.source with
        | none => rw [adjStep_none_of_src m e hs]
        | some ls =>
          have ht : aget (aset m e.source (ls ++ [⟨e.target, e.weight⟩]))
              e.target = none := by
            rw [aget_aset]
            by_cases h4 : e.target = e.source
            · exfalso
              rw [h4, hs] at htn
              cases htn
            · rw [if_neg h4]
              cases hq : aget m e.target
              · rfl
              · rw [hq] at htn
                cases htn
          rw [adjStep_none_of_tgt m e ls hs ht]
    · -- source missing: the first push throws
      have hbsf : nodes.any (fun n => n.id = e.source) = false := by
        cases hq : nodes.any (fun n => n.id = e.source)
        · rfl
        · exact absurd hq hbs
      have hsn : aget m e.source = none := by
        have h1 := hk e.source
        rw [hbsf] at h1
        cases hq : aget m e.source
        · rfl
        · rw [hq] at h1
          cases h1
      rw [adjStep_none_of_src m e hsn]

theorem buildAdjacency_bad (nodes : List Node) (edges : List Edge)
    (hbad : ∃ e ∈ edges, nodes.any (fun n => n.id = e.source) = false ∨
      nodes.any (fun n => n.id = e.target) = false) :
    buildAdjacency nodes edges = none := by
  unfold buildAdjacency
  apply foldlM_adjStep_bad nodes edges (initAdj nodes) _ hbad
  intro k
  rw [aget_initAdj]
  cases hany : nodes.any (fun n => n.id = k)
  · simp [hany]
  · simp [hany]

theorem initAdj_closed (nodes : List Node) : AdjClosed nodes (initAdj nodes) := by
  constructor
  · intro k hk
    rw [aget_initAdj] at hk
    by_cases h : nodes.any (fun n => n.id = k) = true
    · exact h
    · rw [if_neg h] at hk
      simp at hk
  · intro k l hl a ha
    rw [aget_initAdj] at hl
    split at hl
    · simp only [Option.some.injEq] at hl
      rw [← hl] at ha
      simp at ha
    · cases hl

theorem adjStep_closed (nodes : List Node) (m : Adj) (e : Edge) (m' : Adj)
    (h : adjStep m e = some m') (hc : AdjClosed nodes m) : AdjClosed nodes m' := by
  obtain ⟨hkeys, hvals⟩ := hc
  obtain ⟨ls, lt, hs, ht, hm⟩ := adjStep_eq_some m e m' h
  have hsrc : nodes.any (fun n => n.id = e.source) = true :=
    hkeys e.source (by rw [hs]; rfl)
  have htgt : nodes.any (fun n => n.id = e.target) = true := by
    apply hkeys e.target
    rw [aget_aset] at ht
    by_cases h4 : e.target = e.source
    · rw [h4, hs]; rfl
    · rw [if_neg h4] at ht
      rw [ht]; rfl
  constructor
  · intro k hk
    rw [adjStep_isSome m e m' h k] at hk
    exact hkeys k hk
  · intro k l hl a ha
    rw [hm, aget_aset] at hl
    by_cases h5 : k = e.target
    · rw [if_pos h5] at hl
      simp only [Option.some.injEq] at hl
      rw [← hl] at ha
      rcases List.mem_append.mp ha with ha | ha
      · rw [aget_aset] at ht
        by_cases h4 : e.target = e.source
        · rw [if_pos h4] at ht
          simp only [Option.some.injEq] at ht
          rw [← ht] at ha
          rcases List.mem_append.mp ha with ha | ha
          · exact hvals e.source ls hs a ha
          · simp only [List.mem_singleton] at ha
            rw [ha]
            exact htgt
        · rw [if_neg h4] at ht
          exact hvals e.target lt ht a ha
      · simp only [List.mem_singleton] at ha
        rw [ha]
        exact hsrc
    · rw [if_neg h5, aget_aset] at hl
      by_cases h6 : k = e.source
      · rw [if_pos h6] at hl
        simp only [Option.some.injEq] at hl
        rw [← hl] at ha
        rcases List.mem_append.mp ha with ha | ha
        · exact hvals e.source ls hs a ha
        · simp only [List.mem_singleton] at ha
          rw [ha]
          exact htgt
      · rw [if_neg h6] at hl
        exact hvals k l hl a ha

theorem buildAdjacency_closed (nodes : List Node) (edges : List Edge) (adj : Adj)
    (h : buildAdjacency nodes edges = some adj) : AdjClosed nodes adj := by
  unfold buildAdjacency at h
  exact foldlM_adjStep_inv (AdjClosed nodes)
    (fun m e m' hP hs => adjStep_closed nodes m e m' hs hP)
    edges (initAdj nodes) (initAdj_closed nodes) adj h

/-! ## Symmetry of the built adjacency -/

theorem initAdj_sym (nodes : List Node) : AdjSym (initAdj nodes) := by
  intro u w h
  obtain ⟨a, ha, hw⟩ := h
  have h0 : (aget (initAdj nodes) u).getD [] = [] := by
    rw [aget_initAdj]
    split <;> rfl
  rw [h0] at ha
  cases ha

theorem adjStep_sym (m : Adj) (e : Edge) (m' : Adj)
    (h : adjStep m e = some m') (hsym : AdjSym m) : AdjSym m' := by
  obtain ⟨ls, lt, hls, hlt, hm⟩ := adjStep_eq_some m e m' h
  have hget : ∀ k, aget m' k =
      if k = e.target then some (lt ++ [⟨e.source, e.weight⟩])
      else if k = e.source then some (ls ++ [⟨e.target, e.weight⟩])
      else aget m k := by
    intro k
    rw [hm, aget_aset, aget_aset]
  have hlt2 : (if e.target = e.source then some (ls ++ [⟨e.target, e.weight⟩])
      else aget m e.target) = some lt := by
    rw [← aget_aset]
    exact hlt
  have hmono : ∀ k, ∀ b ∈ (aget m k).getD [], b ∈ (aget m' k).getD [] := by
    intro k b hb
    rw [hget k]
    by_cases h1 : k = e.target
    · rw [if_pos h1]
      simp only [Option.getD_some]
      apply List.mem_append_left
      by_cases h2 : e.target = e.source
      · rw [if_pos h2] at hlt2
        simp only [Option.some.injEq] at hlt2
        rw [← hlt2]
        apply List.mem_append_left
        rw [h1, h2, hls] at hb
        exact hb
      · rw [if_neg h2] at hlt2
        rw [h1, hlt2] at hb
        exact hb
    · rw [if_neg h1]
      by_cases h2 : k = e.source
      · rw [if_pos h2]
        simp only [Option.getD_some]
        apply List.mem_append_left
        rw [h2, hls] at hb
        exact hb
      · rw [if_neg h2]
        exact hb
  have hnew_t : (⟨e.source, e.weight⟩ : AdjEntry) ∈ (aget m' e.target).getD [] := by
    rw [hget e.target, if_pos rfl]
    simp
  have hnew_s : (⟨e.target, e.weight⟩ : AdjEntry) ∈ (aget m' e.source).getD [] := by
    rw [hget e.source]
    by_cases h2 : e.source = e.target
    · rw [if_pos h2]
      simp only [Option.getD_some]
      apply List.mem_append_left
      have h3 : e.target = e.source := h2.symm
      rw [if_pos h3] at hlt2
      simp only [Option.some.injEq] at hlt2
      rw [← hlt2]
      simp
    · rw [if_neg h2, if_pos rfl]
      simp
  have hdecomp : ∀ u a, a ∈ (aget m' u).getD [] →
      a ∈ (aget m u).getD [] ∨ (u = e.target ∧ a = ⟨e.source, e.weight⟩) ∨
        (u = e.source ∧ a = ⟨e.target, e.weight⟩) := by
    intro u a ha
    rw [hget u] at ha
    by_cases h1 : u = e.target
    · rw [if_pos h1] at ha
      simp only [Option.getD_some] at ha
      rcases List.mem_append.mp ha with ha | ha
      · by_cases h2 : e.target = e.source
        · rw [if_pos h2] at hlt2
          simp only [Option.some.injEq] at hlt2
          rw [← hlt2] at ha
          rcases List.mem_append.mp ha with ha | ha
          · left
            rw [h1, h2, hls]
            exact ha
          · simp only [List.mem_singleton] at ha
            right; right
            exact ⟨by rw [h1, h2], ha⟩
        · rw [if_neg h2] at hlt2
          left
          rw [h1, hlt2]
          exact ha
      · simp only [List.mem_singleton] at ha
        right; left
        exact ⟨h1, ha⟩
    · rw [if_neg h1] at ha
      by_cases h2 : u = e.source
      · rw [if_pos h2] at ha
        simp only [Option.getD_some] at ha
        rcases List.mem_append.mp ha with ha | ha
        · left
          rw [h2, hls]
          exact ha
        · simp only [List.mem_singleton] at ha
          right; right
          exact ⟨h2, ha⟩
      · rw [if_neg h2] at ha
        left
        exact ha
  intro u w hx
  obtain ⟨a, ha, haw⟩ := hx
  rcases hdecomp u a ha with hc | hc | hc
  · obtain ⟨b, hb, hbto⟩ := hsym u w ⟨a, hc, haw⟩
    exact ⟨b, hmono w b hb, hbto⟩
  · obtain ⟨hu, hav⟩ := hc
    have hw : w = e.source := by
      rw [← haw, hav]
    refine ⟨⟨e.target, e.weight⟩, ?_, ?_⟩
    · rw [hw]
      exact hnew_s
    · rw [hu]
  · obtain ⟨hu, hav⟩ := hc
    have hw : w = e.target := by
      rw [← haw, hav]
    refine ⟨⟨e.source, e.weight⟩, ?_, ?_⟩
    · rw [hw]
      exact hnew_t
    · rw [hu]

theorem buildAdjacency_sym (nodes : List Node) (edges : List Edge) (adj : Adj)
    (h : buildAdjacency nodes edges = some adj) : AdjSym adj := by
  unfold buildAdjacency at h
  exact foldlM_adjStep_inv AdjSym
    (fun m e m' hP hs => adjStep_sym m e m' hs hP)
    edges (initAdj nodes) (initAdj_sym nodes) adj h

/-! ## Lemmas about the neighbor loop -/

theorem pnPost_refl (ty : Strategy) (opts : Options) (endId : Nat)
    (cur : FrontierItem) (visited : List Nat) (q : List FrontierItem)
    (p : List (Nat × Nat)) : pnPost ty opts endId cur visited q q p p :=
  ⟨fun _ hpr => Or.inl hpr, fun _ hit => Or.inl hit⟩

theorem pnPost_step (ty : Strategy) (opts : Options) (endId : Nat)
    (cur : FrontierItem) (visited : List Nat) (q q2 : List FrontierItem)
    (p p2 : List (Nat × Nat)) (nid : Nat) (item : FrontierItem)
    (hid : item.id = nid)
    (hnvis : opts.checkDuplicates = true → nid ∉ visited)
    (hngoal : ¬ (ty = .Dijkstra ∨ ty = .AStar) → nid ≠ endId)
    (hpost : pnPost ty opts endId cur visited (q ++ [item]) q2
      (pset p nid cur.id) p2) :
    pnPost ty opts endId cur visited q q2 p p2 := by
  obtain ⟨hp, hq⟩ := hpost
  constructor
  · intro pr hpr
    rcases hp pr hpr with h1 | h1
    · rcases mem_pset nid cur.id p pr h1 with h2 | h2
      · exact Or.inl h2
      · right
        constructor
        · rw [h2]
        · intro hdup
          rw [h2]
          exact fun hmem => hnvis hdup hmem
    · exact Or.inr h1
  · intro it hit
    rcases hq it hit with h1 | h1
    · rcases List.mem_append.mp h1 with h2 | h2
      · exact Or.inl h2
      · simp only [List.mem_singleton] at h2
        right
        intro hcost
        rw [h2, hid]
        exact hngoal hcost
    · exact Or.inr h1

theorem pn_shape (nodes : List Node) (endId : Nat) (ty : Strategy) (opts : Options)
    (cur : FrontierItem) (visited : List Nat) (hist : List Snapshot) :
    ∀ (l : List AdjEntry) (q : List FrontierItem) (p : List (Nat × Nat)),
      processNeighbors nodes endId ty opts cur visited hist l q p = .crash ∨
      (∃ q2 p2,
        processNeighbors nodes endId ty opts cur visited hist l q p = .cont q2 p2 ∧
        pnPost ty opts endId cur visited q q2 p p2) ∨
      (∃ q2 p2 c n, ¬ (ty = .Dijkstra ∨ ty = .AStar) ∧
        processNeighbors nodes endId ty opts cur visited hist l q p =
          .halt (hist ++ [mkSnap (q2 ++ [⟨endId, c, 0, none, n⟩]) visited p2
            (some endId) .found]) ∧
        pnPost ty opts endId cur visited q q2 p p2)
  | [], q, p => by
    right; left
    exact ⟨q, p, rfl, pnPost_refl ty opts endId cur visited q p⟩
  | e :: rest, q, p => by
    simp only [processNeighbors]
    split
    · exact pn_shape nodes endId ty opts cur visited hist rest q p
    · rename_i hskip
      have hnvis : opts.checkDuplicates = true → e.toId ∉ visited := by
        intro hdup hmem
        apply hskip
        simp [hdup, hmem]
      split
      · rename_i hgoal
        obtain ⟨hty, hid⟩ := hgoal
        right; right
        refine ⟨q, pset p e.toId cur.id, cur.cost + e.weight,
          cur.pathLength + 1, hty, ?_, ?_, fun it hit => Or.inl hit⟩
        · rw [hid]
        · intro pr hpr
          rcases mem_pset e.toId cur.id p pr hpr with h2 | h2
          · exact Or.inl h2
          · right
            constructor
            · rw [h2]
            · intro hdup
              rw [h2]
              exact fun hmem => hnvis hdup hmem
      · rename_i hgoal
        split
        · left
          rfl
        · rename_i hv heq
          have hngoal : ¬ (ty = .Dijkstra ∨ ty = .AStar) → e.toId ≠ endId := by
            intro hcost heq2
            exact hgoal ⟨hcost, heq2⟩
          rcases pn_shape nodes endId ty opts cur visited hist rest
              (q ++ [⟨e.toId, cur.cost + e.weight, cur.cost + e.weight + hv,
                some hv, cur.pathLength + 1⟩]) (pset p e.toId cur.id)
            with hc | ⟨q2, p2, hr, hpost⟩ | ⟨q2, p2, c, n, hty, hr, hpost⟩
          · left
            exact hc
          · right; left
            refine ⟨q2, p2, hr, ?_⟩
            exact pnPost_step ty opts endId cur visited q q2 p p2 e.toId
              _ rfl hnvis hngoal hpost
          · right; right
            refine ⟨q2, p2, c, n, hty, hr, ?_⟩
            exact pnPost_step ty opts endId cur visited q q2 p p2 e.toId
              _ rfl hnvis hngoal hpost

theorem pn_no_crash (nodes : List Node) (endId : Nat) (ty : Strategy)
    (opts : Options) (cur : FrontierItem) (visited : List Nat)
    (hist : List Snapshot) :
    ∀ (l : List AdjEntry) (q : List FrontierItem) (p : List (Nat × Nat)),
      (∀ a ∈ l, ty = .AStar →
        getHeuristic nodes endId opts.heuristicType a.toId ≠ none) →
      processNeighbors nodes endId ty opts cur visited hist l q p ≠ .crash
  | [], q, p, hh => by simp [processNeighbors]
  | e :: rest, q, p, hh => by
    simp only [processNeighbors]
    split
    · exact pn_no_crash nodes endId ty opts cur visited hist rest q p
        (fun a ha => hh a (List.mem_cons_of_mem e ha))
    · split
      · simp
      · split
        · rename_i hnone
          exfalso
          by_cases ha : ty = .AStar
          · rw [if_pos ha] at hnone
            exact hh e (List.mem_cons_self e rest) ha hnone
          · rw [if_neg ha] at hnone
            cases hnone
        · exact pn_no_crash nodes endId ty opts cur visited hist rest _ _
            (fun a ha => hh a (List.mem_cons_of_mem e ha))

/-! ## Shape of one unidirectional loop iteration -/

theorem head_or_last_some (ty : Strategy) (Q : List FrontierItem) (hne : Q ≠ []) :
    ∃ hd, (if ty = .DFS then Q.getLast? else Q.head?) = some hd ∧ hd ∈ Q := by
  by_cases hdfs : ty = .DFS
  · rw [if_pos hdfs, List.getLast?_eq_getLast Q hne]
    exact ⟨_, rfl, List.getLast_mem hne⟩
  · rw [if_neg hdfs]
    cases Q with
    | nil => exact absurd rfl hne
    | cons x xs => exact ⟨x, rfl, List.mem_cons_self x xs⟩

theorem pn_dispatch (nodes : List Node) (endId : Nat) (ty : Strategy)
    (opts : Options) (cur : FrontierItem) (visited : List Nat)
    (hist : List Snapshot) (l : List AdjEntry) (q : List FrontierItem)
    (p : List (Nat × Nat)) (iter : Nat) :
    (processNeighbors nodes endId ty opts cur visited hist l q p = .crash ∧
      (match processNeighbors nodes endId ty opts cur visited hist l q p with
        | .halt h => StepRes.done (σ := RunSt) h
        | .crash => StepRes.crash
        | .cont q2 p2 => StepRes.next ⟨q2, visited, p2, hist, iter⟩) = .crash) ∨
    (∃ h, processNeighbors nodes endId ty opts cur visited hist l q p = .halt h ∧
      (match processNeighbors nodes endId ty opts cur visited hist l q p with
        | .halt h => StepRes.done (σ := RunSt) h
        | .crash => StepRes.crash
        | .cont q2 p2 => StepRes.next ⟨q2, visited, p2, hist, iter⟩) = .done h) ∨
    (∃ q2 p2, processNeighbors nodes endId ty opts cur visited hist l q p = .cont q2 p2 ∧
      (match processNeighbors nodes endId ty opts cur visited hist l q p with
        | .halt h => StepRes.done (σ := RunSt) h
        | .crash => StepRes.crash
        | .cont q2 p2 => StepRes.next ⟨q2, visited, p2, hist, iter⟩) =
        .next ⟨q2, visited, p2, hist, iter⟩) := by
  cases hpn : processNeighbors nodes endId ty opts cur visited hist l q p with
  | halt h =>
    right; left
    exact ⟨h, rfl, rfl⟩
  | crash =>
    left
    exact ⟨rfl, rfl⟩
  | cont q2 p2 =>
    right; right
    exact ⟨q2, p2, rfl, rfl⟩

theorem runStep_shape (nodes : List Node) (adj : Adj) (endId : Nat)
    (ty : Strategy) (opts : Options) (st : RunSt) :
    (st.queue = [] ∧ runStep nodes adj endId ty opts st =
      .done (st.history ++ [mkSnap st.queue st.visited st.parents none .failed])) ∨
    (st.queue ≠ [] ∧ MAX_ITERATIONS < st.iterations + 1 ∧
      runStep nodes adj endId ty opts st =
        .done (st.history ++
          [mkSnap st.queue st.visited st.parents none .limit_reached])) ∨
    (∃ Q headItem nbs histE queue1,
      st.queue ≠ [] ∧ st.iterations + 1 ≤ MAX_ITERATIONS ∧
      (∀ a : FrontierItem, a ∈ Q ↔ a ∈ st.queue) ∧ headItem ∈ Q ∧
      (∀ a ∈ nbs, a ∈ (aget adj headItem.id).getD []) ∧
      histE = st.history ++
        [mkSnap Q st.visited st.parents (some headItem.id) .exploring] ∧
      queue1 = (if ty = .DFS then Q.dropLast else Q.tail) ∧
      ((opts.checkDuplicates = true ∧ headItem.id ∈ st.visited ∧
        runStep nodes adj endId ty opts st =
          .next ⟨queue1, st.visited, st.parents, histE, st.iterations + 1⟩) ∨
      (¬ (opts.checkDuplicates = true ∧ headItem.id ∈ st.visited) ∧
        (ty = .Dijkstra ∨ ty = .AStar) ∧ headItem.id = endId ∧
        runStep nodes adj endId ty opts st =
          .done (histE ++ [mkSnap queue1 (vadd st.visited headItem.id)
            st.parents (some headItem.id) .found])) ∨
      (¬ (opts.checkDuplicates = true ∧ headItem.id ∈ st.visited) ∧
        ¬ ((ty = .Dijkstra ∨ ty = .AStar) ∧ headItem.id = endId) ∧
        ((processNeighbors nodes endId ty opts headItem
            (vadd st.visited headItem.id) histE nbs queue1 st.parents = .crash ∧
          runStep nodes adj endId ty opts st = .crash) ∨
        (∃ h, processNeighbors nodes endId ty opts headItem
            (vadd st.visited headItem.id) histE nbs queue1 st.parents = .halt h ∧
          runStep nodes adj endId ty opts st = .done h) ∨
        (∃ q p, processNeighbors nodes endId ty opts headItem
            (vadd st.visited headItem.id) histE nbs queue1 st.parents = .cont q p ∧
          runStep nodes adj endId ty opts st =
            .next ⟨q, vadd st.visited headItem.id, p, histE,
              st.iterations + 1⟩))))) := by
  simp only [runStep]
  split
  · rename_i hq
    left
    rw [hq]
    exact ⟨rfl, rfl⟩
  · rename_i q1 qrest hq
    have hne : st.queue ≠ [] := by
      rw [hq]
      simp
  -- the sorted-or-not queue
    split
    · rename_i hlim
      right; left
      exact ⟨hne, hlim, rfl⟩
    · rename_i hlim
      have hlim2 : st.iterations + 1 ≤ MAX_ITERATIONS := Nat.le_of_not_lt hlim
      split
      · rename_i hd hnone
        exfalso
        have hQne : (if ty = .Dijkstra ∨ ty = .AStar then
            stableSort (fun a b => decide (a.priority ≤ b.priority)) (q1 :: qrest)
            else q1 :: qrest) ≠ [] := by
          split
          · exact stableSort_ne_nil _ _ (by simp)
          · simp
        obtain ⟨hd2, hh2, _⟩ := head_or_last_some ty _ hQne
        rw [hh2] at hnone
        cases hnone
      · rename_i hd headItem hhd
        right; right
        refine ⟨(if ty = .Dijkstra ∨ ty = .AStar then
            stableSort (fun a b => decide (a.priority ≤ b.priority)) (q1 :: qrest)
            else q1 :: qrest), headItem,
          (if ty = .DFS then
            (sortNeighbors nodes ((aget adj headItem.id).getD [])).reverse
            else sortNeighbors nodes ((aget adj headItem.id).getD [])),
          _, _, hne, hlim2, ?_, ?_, ?_, rfl, rfl, ?_⟩
        · intro a
          rw [hq]
          split
          · rw [mem_stableSort]
          · exact Iff.rfl
        · have hQne : (if ty = .Dijkstra ∨ ty = .AStar then
              stableSort (fun a b => decide (a.priority ≤ b.priority)) (q1 :: qrest)
              else q1 :: qrest) ≠ [] := by
            split
            · exact stableSort_ne_nil _ _ (by simp)
            · simp
          obtain ⟨hd2, hh2, hmem2⟩ := head_or_last_some ty _ hQne
          rw [hh2] at hhd
          simp only [Option.some.injEq] at hhd
          rw [← hhd]
          exact hmem2
        · intro a ha
          split at ha
          · rw [List.mem_reverse] at ha
            unfold sortNeighbors at ha
            rw [mem_stableSort] at ha
            exact ha
          · unfold sortNeighbors at ha
            rw [mem_stableSort] at ha
            exact ha
        · split
          · rename_i hdup
            left
            simp only [Bool.and_eq_true, decide_eq_true_eq] at hdup
            exact ⟨hdup.1, hdup.2, rfl⟩
          · rename_i hdup
            have hdup2 : ¬ (opts.checkDuplicates = true ∧ headItem.id ∈ st.visited) := by
              intro hc
              apply hdup
              simp [hc.1, hc.2]
            split
            · rename_i hfound
              right; left
              exact ⟨hdup2, hfound.1, hfound.2, rfl⟩
            · rename_i hfound
              right; right
              refine ⟨hdup2, hfound, ?_⟩
              exact pn_dispatch nodes endId ty opts headItem _ _ _ _ _ _

/-! ## Generic induction over the unidirectional loop -/

theorem runLoop_inv (nodes : List Node) (adj : Adj) (endId : Nat)
    (ty : Strategy) (opts : Options) (Inv : RunSt → Prop)
    (Q : List Snapshot → Prop)
    (hdone : ∀ st h, Inv st →
      runStep nodes adj endId ty opts st = .done h → Q h)
    (hnext : ∀ st st1, Inv st →
      runStep nodes adj endId ty opts st = .next st1 → Inv st1) :
    ∀ (fuel : Nat) (st : RunSt), Inv st →
      ∀ h, runLoop nodes adj endId ty opts fuel st = some h → Q h
  | 0, st => by
    intro _ h hr
    cases hr
  | fuel + 1, st => by
    intro hInv h hr
    rw [runLoop] at hr
    cases hstep : runStep nodes adj endId ty opts st with
    | done h2 =>
      rw [hstep] at hr
      simp only [Option.some.injEq] at hr
      rw [← hr]
      exact hdone st h2 hInv hstep
    | crash =>
      rw [hstep] at hr
      cases hr
    | next st1 =>
      rw [hstep] at hr
      exact runLoop_inv nodes adj endId ty opts Inv Q hdone hnext fuel st1
        (hnext st st1 hInv hstep) h hr

theorem runStep_next_iterations (nodes : List Node) (adj : Adj) (endId : Nat)
    (ty : Strategy) (opts : Options) (st st1 : RunSt)
    (h : runStep nodes adj endId ty opts st = .next st1) :
    st1.iterations = st.iterations + 1 ∧ st1.iterations ≤ MAX_ITERATIONS := by
  rcases runStep_shape nodes adj endId ty opts st with
    ⟨_, he⟩ | ⟨_, _, he⟩ |
    ⟨Q, headItem, nbs, histE, queue1, _, hlim, _, _, _, _, _,
      ⟨_, _, he⟩ | ⟨_, _, _, he⟩ | ⟨_, _, hpn⟩⟩
  · rw [he] at h; cases h
  · rw [he] at h; cases h
  · rw [he] at h
    simp only [StepRes.next.injEq] at h
    rw [← h]
    exact ⟨rfl, hlim⟩
  · rw [he] at h; cases h
  · rcases hpn with ⟨_, he⟩ | ⟨h2, _, he⟩ | ⟨q, p, _, he⟩
    · rw [he] at h; cases h
    · rw [he] at h; cases h
    · rw [he] at h
      simp only [StepRes.next.injEq] at h
      rw [← h]
      exact ⟨rfl, hlim⟩

theorem runLoop_total (nodes : List Node) (adj : Adj) (endId : Nat)
    (ty : Strategy) (opts : Options)
    (hnc : ∀ st, runStep nodes adj endId ty opts st ≠ .crash) :
    ∀ (fuel : Nat) (st : RunSt),
      MAX_ITERATIONS + 1 ≤ fuel + st.iterations →
      st.iterations ≤ MAX_ITERATIONS →
      ∃ h, runLoop nodes adj endId ty opts fuel st = some h
  | 0, st => by
    intro hf hi
    omega
  | fuel + 1, st => by
    intro hf hi
    rw [runLoop]
    cases hstep : runStep nodes adj endId ty opts st with
    | done h2 => exact ⟨h2, rfl⟩
    | crash => exact absurd hstep (hnc st)
    | next st1 =>
      obtain ⟨h1, h2⟩ := runStep_next_iterations nodes adj endId ty opts st st1 hstep
      exact runLoop_total nodes adj endId ty opts hnc fuel st1
        (by omega) h2

theorem runStep_no_crash (nodes : List Node) (adj : Adj) (endId : Nat)
    (ty : Strategy) (opts : Options)
    (hh : ∀ k l, aget adj k = some l → ∀ a ∈ l, ty = .AStar →
      getHeuristic nodes endId opts.heuristicType a.toId ≠ none)
    (st : RunSt) : runStep nodes adj endId ty opts st ≠ .crash := by
  rcases runStep_shape nodes adj endId ty opts st with
    ⟨_, he⟩ | ⟨_, _, he⟩ |
    ⟨Q, headItem, nbs, histE, queue1, _, _, _, _, hnbs, _, _,
      ⟨_, _, he⟩ | ⟨_, _, _, he⟩ | ⟨_, _, hpn⟩⟩
  · rw [he]; simp
  · rw [he]; simp
  · rw [he]; simp
  · rw [he]; simp
  · rcases hpn with ⟨hcr, he⟩ | ⟨h2, _, he⟩ | ⟨q, p, _, he⟩
    · exfalso
      apply pn_no_crash nodes endId ty opts headItem
        (vadd st.visited headItem.id) histE nbs queue1 st.parents _ hcr
      intro a ha has
      cases haget : aget adj headItem.id with
      | none =>
        have := hnbs a ha
        rw [haget] at this
        cases this
      | some l =>
        have hmem : a ∈ l := by
          have h2 := hnbs a ha
          rw [haget] at h2
          exact h2
        exact hh headItem.id l haget a hmem has
    · rw [he]; simp
    · rw [he]; simp

/-! ## Status discipline of the unidirectional loop -/

theorem mkSnap_status (q : List FrontierItem) (v : List Nat)
    (p : List (Nat × Nat)) (c : Option Nat) (st : Status) :
    (mkSnap q v p c st).status = st := rfl

theorem runLoop_statuses (nodes : List Node) (adj : Adj) (endId : Nat)
    (ty : Strategy) (opts : Options) (fuel : Nat) (st : RunSt)
    (hInv : ∀ s ∈ st.history, s.status = .exploring) :
    ∀ h, runLoop nodes adj endId ty opts fuel st = some h → GoodHistory h := by
  apply runLoop_inv nodes adj endId ty opts
    (fun st2 => ∀ s ∈ st2.history, s.status = .exploring) GoodHistory
    ?_ ?_ fuel st hInv
  · intro st2 h hI hstep
    rcases runStep_shape nodes adj endId ty opts st2 with
      ⟨hq, he⟩ | ⟨hq, hlim, he⟩ |
      ⟨Q, headItem, nbs, histE, queue1, hne, hlim, hQ, hhd, hnbs, hhist, hq1, hcase⟩
    · rw [he] at hstep
      simp only [StepRes.done.injEq] at hstep
      rw [← hstep]
      exact ⟨st2.history, _, rfl, hI, by rw [mkSnap_status]; decide⟩
    · rw [he] at hstep
      simp only [StepRes.done.injEq] at hstep
      rw [← hstep]
      exact ⟨st2.history, _, rfl, hI, by rw [mkSnap_status]; decide⟩
    · have hhistE : ∀ s ∈ histE, s.status = .exploring := by
        rw [hhist]
        intro s hs
        rcases List.mem_append.mp hs with hs | hs
        · exact hI s hs
        · simp only [List.mem_singleton] at hs
          rw [hs]
          rfl
      rcases hcase with ⟨_, _, he⟩ | ⟨_, _, _, he⟩ | ⟨_, _, hpn⟩
      · rw [he] at hstep
        cases hstep
      · rw [he] at hstep
        simp only [StepRes.done.injEq] at hstep
        rw [← hstep]
        exact ⟨histE, _, rfl, hhistE, by rw [mkSnap_status]; decide⟩
      · rcases hpn with ⟨_, he⟩ | ⟨h2, hpnEq, he⟩ | ⟨q, p, _, he⟩
        · rw [he] at hstep
          cases hstep
        · rw [he] at hstep
          simp only [StepRes.done.injEq] at hstep
          rw [← hstep]
          rcases pn_shape nodes endId ty opts headItem (vadd st2.visited headItem.id)
              histE nbs queue1 st2.parents with
            hsh | ⟨q2, p2, hsh, _⟩ | ⟨q2, p2, c, n, _, hsh, _⟩
          · rw [hpnEq] at hsh
            cases hsh
          · rw [hpnEq] at hsh
            cases hsh
          · rw [hpnEq] at hsh
            simp only [NbRes.halt.injEq] at hsh
            rw [hsh]
            exact ⟨histE, _, rfl, hhistE, by rw [mkSnap_status]; decide⟩
        · rw [he] at hstep
          cases hstep
  · intro st2 st3 hI hstep
    rcases runStep_shape nodes adj endId ty opts st2 with
      ⟨hq, he⟩ | ⟨hq, hlim, he⟩ |
      ⟨Q, headItem, nbs, histE, queue1, hne, hlim, hQ, hhd, hnbs, hhist, hq1, hcase⟩
    · rw [he] at hstep; cases hstep
    · rw [he] at hstep; cases hstep
    · have hhistE : ∀ s ∈ histE, s.status = .exploring := by
        rw [hhist]
        intro s hs
        rcases List.mem_append.mp hs with hs | hs
        · exact hI s hs
        · simp only [List.mem_singleton] at hs
          rw [hs]
          rfl
      rcases hcase with ⟨_, _, he⟩ | ⟨_, _, _, he⟩ | ⟨_, _, hpn⟩
      · rw [he] at hstep
        simp only [StepRes.next.injEq] at hstep
        rw [← hstep]
        exact hhistE
      · rw [he] at hstep; cases hstep
      · rcases hpn with ⟨_, he⟩ | ⟨h2, _, he⟩ | ⟨q, p, _, he⟩
        · rw [he] at hstep; cases hstep
        · rw [he] at hstep; cases hstep
        · rw [he] at hstep
          simp only [StepRes.next.injEq] at hstep
          rw [← hstep]
          exact hhistE

/-! ## Goal-test timing of the unidirectional loop -/

theorem mkSnap_current (q : List FrontierItem) (v : List Nat)
    (p : List (Nat × Nat)) (c : Option Nat) (st : Status) :
    (mkSnap q v p c st).current = c := rfl

theorem mkSnap_visited (q : List FrontierItem) (v : List Nat)
    (p : List (Nat × Nat)) (c : Option Nat) (st : Status) :
    (mkSnap q v p c st).visited = v := rfl

theorem mkSnap_parents (q : List FrontierItem) (v : List Nat)
    (p : List (Nat × Nat)) (c : Option Nat) (st : Status) :
    (mkSnap q v p c st).parents = p := rfl

theorem mkSnap_queue (q : List FrontierItem) (v : List Nat)
    (p : List (Nat × Nat)) (c : Option Nat) (st : Status) :
    (mkSnap q v p c st).queue = q.map FrontierItem.toQ := rfl

theorem popFoundProp_of (endId : Nat) (pre : List Snapshot) (x : Snapshot)
    (hpre : ∀ s ∈ pre, s.status = .exploring)
    (hx : x.status = .found →
      x.current = some endId ∧ endId ∈ x.visited ∧ ∀ s ∈ pre, endId ∉ s.visited)
    (hnx : x.status ≠ .found →
      (∀ s ∈ pre, endId ∉ s.visited) ∧ endId ∉ x.visited) :
    PopFoundProp endId (pre ++ [x]) := by
  constructor
  · rw [List.dropLast_concat]
    exact hpre
  · intro lastS hl
    rw [List.getLast?_concat] at hl
    simp only [Option.some.injEq] at hl
    subst hl
    constructor
    · intro hf
      obtain ⟨h1, h2, h3⟩ := hx hf
      refine ⟨h1, h2, ?_⟩
      rw [List.dropLast_concat]
      exact h3
    · intro hnf
      obtain ⟨h1, h2⟩ := hnx hnf
      intro s hs
      rcases List.mem_append.mp hs with hs | hs
      · exact h1 s hs
      · simp only [List.mem_singleton] at hs
        rw [hs]
        exact h2

theorem pushFoundProp_of (endId : Nat) (pre : List Snapshot) (x : Snapshot)
    (hpre : ∀ s ∈ pre, s.status = .exploring)
    (hx : x.status = .found →
      x.current = some endId ∧ endId ∉ x.visited ∧
        (x.queue.getLast?).map QItem.id = some endId ∧
        ∀ s ∈ pre, endId ∉ s.visited ∧ ∀ q ∈ s.queue, q.id ≠ endId)
    (hnx : x.status ≠ .found →
      (∀ s ∈ pre, endId ∉ s.visited ∧ ∀ q ∈ s.queue, q.id ≠ endId) ∧
        (endId ∉ x.visited ∧ ∀ q ∈ x.queue, q.id ≠ endId)) :
    PushFoundProp endId (pre ++ [x]) := by
  constructor
  · rw [List.dropLast_concat]
    exact hpre
  · intro lastS hl
    rw [List.getLast?_concat] at hl
    simp only [Option.some.injEq] at hl
    subst hl
    constructor
    · intro hf
      obtain ⟨h1, h2, h3, h4⟩ := hx hf
      refine ⟨h1, h2, h3, ?_⟩
      rw [List.dropLast_concat]
      exact h4
    · intro hnf
      obtain ⟨h1, h2⟩ := hnx hnf
      intro s hs
      rcases List.mem_append.mp hs with hs | hs
      · exact h1 s hs
      · simp only [List.mem_singleton] at hs
        rw [hs]
        exact h2

theorem runLoop_popFound (nodes : List Node) (adj : Adj) (endId : Nat)
    (ty : Strategy) (opts : Options) (hty : ty = .Dijkstra ∨ ty = .AStar)
    (fuel : Nat) (st : RunSt)
    (hInv : endId ∉ st.visited ∧
      ∀ s ∈ st.history, s.status = .exploring ∧ endId ∉ s.visited) :
    ∀ h, runLoop nodes adj endId ty opts fuel st = some h →
      PopFoundProp endId h := by
  apply runLoop_inv nodes adj endId ty opts
    (fun st2 => endId ∉ st2.visited ∧
      ∀ s ∈ st2.history, s.status = .exploring ∧ endId ∉ s.visited)
    (PopFoundProp endId) ?_ ?_ fuel st hInv
  · intro st2 h hI hstep
    obtain ⟨hIv, hIh⟩ := hI
    rcases runStep_shape nodes adj endId ty opts st2 with
      ⟨hq, he⟩ | ⟨hq, hlim, he⟩ |
      ⟨Q, headItem, nbs, histE, queue1, hne, hlim, hQ, hhd, hnbs, hhist, hq1, hcase⟩
    · rw [he] at hstep
      simp only [StepRes.done.injEq] at hstep
      rw [← hstep]
      apply popFoundProp_of
      · exact fun s hs => (hIh s hs).1
      · intro hf
        rw [mkSnap_status] at hf
        cases hf
      · intro _
        exact ⟨fun s hs => (hIh s hs).2, hIv⟩
    · rw [he] at hstep
      simp only [StepRes.done.injEq] at hstep
      rw [← hstep]
      apply popFoundProp_of
      · exact fun s hs => (hIh s hs).1
      · intro hf
        rw [mkSnap_status] at hf
        cases hf
      · intro _
        exact ⟨fun s hs => (hIh s hs).2, hIv⟩
    · have hhistE : ∀ s ∈ histE, s.status = .exploring ∧ endId ∉ s.visited := by
        rw [hhist]
        intro s hs
        rcases List.mem_append.mp hs with hs | hs
        · exact hIh s hs
        · simp only [List.mem_singleton] at hs
          rw [hs]
          exact ⟨rfl, hIv⟩
      rcases hcase with ⟨_, _, he⟩ | ⟨hndup, hcost, hid, he⟩ | ⟨hndup, hnfound, hpn⟩
      · rw [he] at hstep
        cases hstep
      · rw [he] at hstep
        simp only [StepRes.done.injEq] at hstep
        rw [← hstep]
        apply popFoundProp_of
        · exact fun s hs => (hhistE s hs).1
        · intro _
          refine ⟨by rw [mkSnap_current, hid], ?_, fun s hs => (hhistE s hs).2⟩
          rw [mkSnap_visited, ← hid]
          exact self_mem_vadd st2.visited headItem.id
        · intro hnf
          rw [mkSnap_status] at hnf
          exact absurd rfl hnf
      · rcases hpn with ⟨_, he⟩ | ⟨h2, hpnEq, he⟩ | ⟨q, p, _, he⟩
        · rw [he] at hstep
          cases hstep
        · exfalso
          rcases pn_shape nodes endId ty opts headItem (vadd st2.visited headItem.id)
              histE nbs queue1 st2.parents with
            hsh | ⟨q2, p2, hsh, _⟩ | ⟨q2, p2, c, n, hncost, hsh, _⟩
          · rw [hpnEq] at hsh
            cases hsh
          · rw [hpnEq] at hsh
            cases hsh
          · exact hncost hty
        · rw [he] at hstep
          cases hstep
  · intro st2 st3 hI hstep
    obtain ⟨hIv, hIh⟩ := hI
    rcases runStep_shape nodes adj endId ty opts st2 with
      ⟨hq, he⟩ | ⟨hq, hlim, he⟩ |
      ⟨Q, headItem, nbs, histE, queue1, hne, hlim, hQ, hhd, hnbs, hhist, hq1, hcase⟩
    · rw [he] at hstep; cases hstep
    · rw [he] at hstep; cases hstep
    · have hhistE : ∀ s ∈ histE, s.status = .exploring ∧ endId ∉ s.visited := by
        rw [hhist]
        intro s hs
        rcases List.mem_append.mp hs with hs | hs
        · exact hIh s hs
        · simp only [List.mem_singleton] at hs
          rw [hs]
          exact ⟨rfl, hIv⟩
      rcases hcase with ⟨_, _, he⟩ | ⟨_, _, _, he⟩ | ⟨hndup, hnfound, hpn⟩
      · rw [he] at hstep
        simp only [StepRes.next.injEq] at hstep
        rw [← hstep]
        exact ⟨hIv, hhistE⟩
      · rw [he] at hstep; cases hstep
      · rcases hpn with ⟨_, he⟩ | ⟨h2, _, he⟩ | ⟨q, p, _, he⟩
        · rw [he] at hstep; cases hstep
        · rw [he] at hstep; cases hstep
        · rw [he] at hstep
          simp only [StepRes.next.injEq] at hstep
          rw [← hstep]
          refine ⟨?_, hhistE⟩
          intro hmem
          rcases (mem_vadd st2.visited headItem.id endId).mp hmem with hmem | hmem
          · exact hIv hmem
          · exact hnfound ⟨hty, hmem.symm⟩

theorem runLoop_pushFound (nodes : List Node) (adj : Adj) (endId : Nat)
    (ty : Strategy) (opts : Options) (hty : ty = .BFS ∨ ty = .DFS)
    (fuel : Nat) (st : RunSt)
    (hInv : endId ∉ st.visited ∧ (∀ it ∈ st.queue, it.id ≠ endId) ∧
      ∀ s ∈ st.history, s.status = .exploring ∧ endId ∉ s.visited ∧
        ∀ q ∈ s.queue, q.id ≠ endId) :
    ∀ h, runLoop nodes adj endId ty opts fuel st = some h →
      PushFoundProp endId h := by
  have hncost : ¬ (ty = .Dijkstra ∨ ty = .AStar) := by
    rcases hty with h | h <;> rw [h] <;> decide
  apply runLoop_inv nodes adj endId ty opts
    (fun st2 => endId ∉ st2.visited ∧ (∀ it ∈ st2.queue, it.id ≠ endId) ∧
      ∀ s ∈ st2.history, s.status = .exploring ∧ endId ∉ s.visited ∧
        ∀ q ∈ s.queue, q.id ≠ endId)
    (PushFoundProp endId) ?_ ?_ fuel st hInv
  · intro st2 h hI hstep
    obtain ⟨hIv, hIq, hIh⟩ := hI
    rcases runStep_shape nodes adj endId ty opts st2 with
      ⟨hq, he⟩ | ⟨hq, hlim, he⟩ |
      ⟨Q, headItem, nbs, histE, queue1, hne, hlim, hQ, hhd, hnbs, hhist, hq1, hcase⟩
    · rw [he] at hstep
      simp only [StepRes.done.injEq] at hstep
      rw [← hstep]
      apply pushFoundProp_of
      · exact fun s hs => (hIh s hs).1
      · intro hf
        rw [mkSnap_status] at hf
        cases hf
      · intro _
        refine ⟨fun s hs => ⟨(hIh s hs).2.1, (hIh s hs).2.2⟩, hIv, ?_⟩
        rw [mkSnap_queue]
        intro q hq2
        obtain ⟨it, hit, heq⟩ := List.mem_map.mp hq2
        rw [← heq]
        exact hIq it hit
    · rw [he] at hstep
      simp only [StepRes.done.injEq] at hstep
      rw [← hstep]
      apply pushFoundProp_of
      · exact fun s hs => (hIh s hs).1
      · intro hf
        rw [mkSnap_status] at hf
        cases hf
      · intro _
        refine ⟨fun s hs => ⟨(hIh s hs).2.1, (hIh s hs).2.2⟩, hIv, ?_⟩
        rw [mkSnap_queue]
        intro q hq2
        obtain ⟨it, hit, heq⟩ := List.mem_map.mp hq2
        rw [← heq]
        exact hIq it hit
    · have hQid : ∀ it ∈ Q, it.id ≠ endId := by
        intro it hit
        exact hIq it ((hQ it).mp hit)
      have hhd2 : headItem.id ≠ endId := hQid headItem hhd
      have hhistE : ∀ s ∈ histE, s.status = .exploring ∧ endId ∉ s.visited ∧
          ∀ q ∈ s.queue, q.id ≠ endId := by
        rw [hhist]
        intro s hs
        rcases List.mem_append.mp hs with hs | hs
        · exact hIh s hs
        · simp only [List.mem_singleton] at hs
          rw [hs]
          refine ⟨rfl, hIv, ?_⟩
          rw [mkSnap_queue]
          intro q hq2
          obtain ⟨it, hit, heq⟩ := List.mem_map.mp hq2
          rw [← heq]
          exact hQid it hit
      rcases hcase with ⟨_, _, he⟩ | ⟨_, hcost, _, he⟩ | ⟨hndup, hnfound, hpn⟩
      · rw [he] at hstep
        cases hstep
      · exact absurd hcost hncost
      · rcases hpn with ⟨_, he⟩ | ⟨h2, hpnEq, he⟩ | ⟨q, p, _, he⟩
        · rw [he] at hstep
          cases hstep
        · rw [he] at hstep
          simp only [StepRes.done.injEq] at hstep
          rw [← hstep]
          rcases pn_shape nodes endId ty opts headItem (vadd st2.visited headItem.id)
              histE nbs queue1 st2.parents with
            hsh | ⟨q2, p2, hsh, _⟩ | ⟨q2, p2, c, n, _, hsh, hpost⟩
          · rw [hpnEq] at hsh
            cases hsh
          · rw [hpnEq] at hsh
            cases hsh
          · rw [hpnEq] at hsh
            simp only [NbRes.halt.injEq] at hsh
            rw [hsh]
            apply pushFoundProp_of
            · exact fun s hs => (hhistE s hs).1
            · intro _
              refine ⟨rfl, ?_, ?_, fun s hs => ⟨(hhistE s hs).2.1, (hhistE s hs).2.2⟩⟩
              · rw [mkSnap_visited]
                intro hmem
                rcases (mem_vadd st2.visited headItem.id endId).mp hmem with hm | hm
                · exact hIv hm
                · exact hhd2 hm.symm
              · simp only [mkSnap_queue, List.map_append, List.map_cons,
                  List.map_nil, List.getLast?_concat]
                rfl
            · intro hnf
              rw [mkSnap_status] at hnf
              exact absurd rfl hnf
        · rw [he] at hstep
          cases hstep
  · intro st2 st3 hI hstep
    obtain ⟨hIv, hIq, hIh⟩ := hI
    rcases runStep_shape nodes adj endId ty opts st2 with
      ⟨hq, he⟩ | ⟨hq, hlim, he⟩ |
      ⟨Q, headItem, nbs, histE, queue1, hne, hlim, hQ, hhd, hnbs, hhist, hq1, hcase⟩
    · rw [he] at hstep; cases hstep
    · rw [he] at hstep; cases hstep
    · have hQid : ∀ it ∈ Q, it.id ≠ endId := by
        intro it hit
        exact hIq it ((hQ it).mp hit)
      have hhd2 : headItem.id ≠ endId := hQid headItem hhd
      have hq1id : ∀ it ∈ queue1, it.id ≠ endId := by
        intro it hit
        apply hQid
        rw [hq1] at hit
        by_cases hdfs : ty = .DFS
        · rw [if_pos hdfs] at hit
          exact List.dropLast_subset Q hit
        · rw [if_neg hdfs] at hit
          exact List.tail_subset Q hit
      have hhistE : ∀ s ∈ histE, s.status = .exploring ∧ endId ∉ s.visited ∧
          ∀ q ∈ s.queue, q.id ≠ endId := by
        rw [hhist]
        intro s hs
        rcases List.mem_append.mp hs with hs | hs
        · exact hIh s hs
        · simp only [List.mem_singleton] at hs
          rw [hs]
          refine ⟨rfl, hIv, ?_⟩
          rw [mkSnap_queue]
          intro q hq2
          obtain ⟨it, hit, heq⟩ := List.mem_map.mp hq2
          rw [← heq]
          exact hQid it hit
      rcases hcase with ⟨_, _, he⟩ | ⟨_, hcost, _, he⟩ | ⟨hndup, hnfound, hpn⟩
      · rw [he] at hstep
        simp only [StepRes.next.injEq] at hstep
        rw [← hstep]
        exact ⟨hIv, hq1id, hhistE⟩
      · exact absurd hcost hncost
      · rcases hpn with ⟨_, he⟩ | ⟨h2, _, he⟩ | ⟨q, p, hpnEq, he⟩
        · rw [he] at hstep; cases hstep
        · rw [he] at hstep; cases hstep
        · rw [he] at hstep
          simp only [StepRes.next.injEq] at hstep
          rw [← hstep]
          have hvad : endId ∉ vadd st2.visited headItem.id := by
            intro hmem
            rcases (mem_vadd st2.visited headItem.id endId).mp hmem with hm | hm
            · exact hIv hm
            · exact hhd2 hm.symm
          refine ⟨hvad, ?_, hhistE⟩
          rcases pn_shape nodes endId ty opts headItem (vadd st2.visited headItem.id)
              histE nbs queue1 st2.parents with
            hsh | ⟨q2, p2, hsh, hpost⟩ | ⟨q2, p2, c, n, _, hsh, _⟩
          · rw [hpnEq] at hsh
            cases hsh
          · rw [hpnEq] at hsh
            simp only [NbRes.cont.injEq] at hsh
            obtain ⟨hq2, hp2⟩ := hsh
            intro it hit
            have hit2 : it ∈ q2 := by
              rw [← hq2]
              exact hit
            rcases hpost.2 it hit2 with hm | hm
            · exact hq1id it hm
            · exact hm hncost
          · rw [hpnEq] at hsh
            cases hsh

/-! ## Parents-map invariant and iteration count of the unidirectional loop -/

theorem runLoop_parents (nodes : List Node) (adj : Adj) (endId : Nat)
    (ty : Strategy) (opts : Options) (startId : Nat) (fuel : Nat) (st : RunSt)
    (hInv : (∀ pr ∈ st.parents,
        (opts.checkDuplicates = true → pr.1 ≠ startId) ∧ pr.2 ∈ st.visited) ∧
      (startId ∈ st.visited ∨
        (st.visited = [] ∧ st.queue = [⟨startId, 0, 0, none, 0⟩])) ∧
      ∀ s ∈ st.history, ParentsOK startId opts.checkDuplicates s) :
    ∀ h, runLoop nodes adj endId ty opts fuel st = some h →
      ∀ s ∈ h, ParentsOK startId opts.checkDuplicates s := by
  apply runLoop_inv nodes adj endId ty opts
    (fun st2 => (∀ pr ∈ st2.parents,
        (opts.checkDuplicates = true → pr.1 ≠ startId) ∧ pr.2 ∈ st2.visited) ∧
      (startId ∈ st2.visited ∨
        (st2.visited = [] ∧ st2.queue = [⟨startId, 0, 0, none, 0⟩])) ∧
      ∀ s ∈ st2.history, ParentsOK startId opts.checkDuplicates s)
    (fun h => ∀ s ∈ h, ParentsOK startId opts.checkDuplicates s)
    ?_ ?_ fuel st hInv
  · intro st2 h hI hstep
    obtain ⟨hIp, hI2, hIh⟩ := hI
    rcases runStep_shape nodes adj endId ty opts st2 with
      ⟨hq, he⟩ | ⟨hq, hlim, he⟩ |
      ⟨Q, headItem, nbs, histE, queue1, hne, hlim, hQ, hhd, hnbs, hhist, hq1, hcase⟩
    · rw [he] at hstep
      simp only [StepRes.done.injEq] at hstep
      rw [← hstep]
      intro s hs
      rcases List.mem_append.mp hs with hs | hs
      · exact hIh s hs
      · simp only [List.mem_singleton] at hs
        rw [hs]
        exact hIp
    · rw [he] at hstep
      simp only [StepRes.done.injEq] at hstep
      rw [← hstep]
      intro s hs
      rcases List.mem_append.mp hs with hs | hs
      · exact hIh s hs
      · simp only [List.mem_singleton] at hs
        rw [hs]
        exact hIp
    · have hstart2 : startId ∈ vadd st2.visited headItem.id := by
        rcases hI2 with hmem | ⟨hv, hq2⟩
        · exact mem_vadd_of_mem _ _ _ hmem
        · have hseed : headItem ∈ st2.queue := (hQ headItem).mp hhd
          rw [hq2] at hseed
          simp only [List.mem_singleton] at hseed
          rw [hseed, hv]
          exact self_mem_vadd [] startId
      have hhistE : ∀ s ∈ histE, ParentsOK startId opts.checkDuplicates s := by
        rw [hhist]
        intro s hs
        rcases List.mem_append.mp hs with hs | hs
        · exact hIh s hs
        · simp only [List.mem_singleton] at hs
          rw [hs]
          exact hIp
      rcases hcase with ⟨_, _, he⟩ | ⟨hndup, hcost, hid, he⟩ | ⟨hndup, hnfound, hpn⟩
      · rw [he] at hstep
        cases hstep
      · rw [he] at hstep
        simp only [StepRes.done.injEq] at hstep
        rw [← hstep]
        intro s hs
        rcases List.mem_append.mp hs with hs | hs
        · exact hhistE s hs
        · simp only [List.mem_singleton] at hs
          rw [hs]
          intro pr hpr
          exact ⟨(hIp pr hpr).1, mem_vadd_of_mem _ _ _ (hIp pr hpr).2⟩
      · rcases hpn with ⟨_, he⟩ | ⟨h2, hpnEq, he⟩ | ⟨q, p, _, he⟩
        · rw [he] at hstep
          cases hstep
        · rw [he] at hstep
          simp only [StepRes.done.injEq] at hstep
          rw [← hstep]
          rcases pn_shape nodes endId ty opts headItem (vadd st2.visited headItem.id)
              histE nbs queue1 st2.parents with
            hsh | ⟨q2, p2, hsh, _⟩ | ⟨q2, p2, c, n, _, hsh, hpost⟩
          · rw [hpnEq] at hsh
            cases hsh
          · rw [hpnEq] at hsh
            cases hsh
          · rw [hpnEq] at hsh
            simp only [NbRes.halt.injEq] at hsh
            rw [hsh]
            intro s hs
            rcases List.mem_append.mp hs with hs | hs
            · exact hhistE s hs
            · simp only [List.mem_singleton] at hs
              rw [hs]
              intro pr hpr
              rcases hpost.1 pr hpr with hold | ⟨hval, hkey⟩
              · exact ⟨(hIp pr hold).1,
                  mem_vadd_of_mem _ _ _ (hIp pr hold).2⟩
              · refine ⟨?_, ?_⟩
                · intro hdup heq
                  apply hkey hdup
                  rw [heq]
                  exact hstart2
                · rw [hval]
                  exact self_mem_vadd st2.visited headItem.id
        · rw [he] at hstep
          cases hstep
  · intro st2 st3 hI hstep
    obtain ⟨hIp, hI2, hIh⟩ := hI
    rcases runStep_shape nodes adj endId ty opts st2 with
      ⟨hq, he⟩ | ⟨hq, hlim, he⟩ |
      ⟨Q, headItem, nbs, histE, queue1, hne, hlim, hQ, hhd, hnbs, hhist, hq1, hcase⟩
    · rw [he] at hstep; cases hstep
    · rw [he] at hstep; cases hstep
    · have hstart2 : startId ∈ vadd st2.visited headItem.id := by
        rcases hI2 with hmem | ⟨hv, hq2⟩
        · exact mem_vadd_of_mem _ _ _ hmem
        · have hseed : headItem ∈ st2.queue := (hQ headItem).mp hhd
          rw [hq2] at hseed
          simp only [List.mem_singleton] at hseed
          rw [hseed, hv]
          exact self_mem_vadd [] startId
      have hhistE : ∀ s ∈ histE, ParentsOK startId opts.checkDuplicates s := by
        rw [hhist]
        intro s hs
        rcases List.mem_append.mp hs with hs | hs
        · exact hIh s hs
        · simp only [List.mem_singleton] at hs
          rw [hs]
          exact hIp
      rcases hcase with ⟨hdup, hmem, he⟩ | ⟨_, _, _, he⟩ | ⟨hndup, hnfound, hpn⟩
      · rw [he] at hstep
        simp only [StepRes.next.injEq] at hstep
        rw [← hstep]
        refine ⟨hIp, ?_, hhistE⟩
        left
        rcases hI2 with hm | ⟨hv, _⟩
        · exact hm
        · rw [hv] at hmem
          cases hmem
      · rw [he] at hstep; cases hstep
      · rcases hpn with ⟨_, he⟩ | ⟨h2, _, he⟩ | ⟨q, p, hpnEq, he⟩
        · rw [he] at hstep; cases hstep
        · rw [he] at hstep; cases hstep
        · rw [he] at hstep
          simp only [StepRes.next.injEq] at hstep
          rw [← hstep]
          rcases pn_shape nodes endId ty opts headItem (vadd st2.visited headItem.id)
              histE nbs queue1 st2.parents with
            hsh | ⟨q2, p2, hsh, hpost⟩ | ⟨q2, p2, c, n, _, hsh, _⟩
          · rw [hpnEq] at hsh
            cases hsh
          · rw [hpnEq] at hsh
            simp only [NbRes.cont.injEq] at hsh
            obtain ⟨hq2, hp2⟩ := hsh
            refine ⟨?_, Or.inl hstart2, hhistE⟩
            intro pr hpr
            have hpr2 : pr ∈ p2 := by
              rw [← hp2]
              exact hpr
            rcases hpost.1 pr hpr2 with hold | ⟨hval, hkey⟩
            · exact ⟨(hIp pr hold).1, mem_vadd_of_mem _ _ _ (hIp pr hold).2⟩
            · refine ⟨?_, ?_⟩
              · intro hdup heq
                apply hkey hdup
                rw [heq]
                exact hstart2
              · rw [hval]
                exact self_mem_vadd st2.visited headItem.id
          · rw [hpnEq] at hsh
            cases hsh

theorem exploringCount_append (a b : List Snapshot) :
    exploringCount (a ++ b) = exploringCount a + exploringCount b := by
  unfold exploringCount
  rw [List.countP_append]

theorem exploringCount_single (s : Snapshot) :
    exploringCount [s] = if s.status = .exploring then 1 else 0 := by
  unfold exploringCount
  rw [List.countP_cons, List.countP_nil]
  by_cases h : s.status = .exploring <;> simp [h]

theorem runLoop_count (nodes : List Node) (adj : Adj) (endId : Nat)
    (ty : Strategy) (opts : Options) (fuel : Nat) (st : RunSt)
    (hInv : exploringCount st.history = st.iterations ∧
      st.iterations ≤ MAX_ITERATIONS ∧
      ∀ s ∈ st.history, s.status = .exploring) :
    ∀ h, runLoop nodes adj endId ty opts fuel st = some h →
      exploringCount h ≤ MAX_ITERATIONS ∧
      ∀ s ∈ h, s.status = .limit_reached →
        h.getLast? = some s ∧ exploringCount h = MAX_ITERATIONS := by
  apply runLoop_inv nodes adj endId ty opts
    (fun st2 => exploringCount st2.history = st2.iterations ∧
      st2.iterations ≤ MAX_ITERATIONS ∧
      ∀ s ∈ st2.history, s.status = .exploring)
    (fun h => exploringCount h ≤ MAX_ITERATIONS ∧
      ∀ s ∈ h, s.status = .limit_reached →
        h.getLast? = some s ∧ exploringCount h = MAX_ITERATIONS)
    ?_ ?_ fuel st hInv
  · intro st2 h hI hstep
    obtain ⟨hIc, hIb, hIh⟩ := hI
    rcases runStep_shape nodes adj endId ty opts st2 with
      ⟨hq, he⟩ | ⟨hq, hlim, he⟩ |
      ⟨Q, headItem, nbs, histE, queue1, hne, hlim, hQ, hhd, hnbs, hhist, hq1, hcase⟩
    · rw [he] at hstep
      simp only [StepRes.done.injEq] at hstep
      rw [← hstep]
      have hcnt : exploringCount (st2.history ++
          [mkSnap st2.queue st2.visited st2.parents none .failed]) =
          st2.iterations := by
        rw [exploringCount_append, exploringCount_single, mkSnap_status]
        rw [if_neg (by decide), hIc]
        omega
      constructor
      · rw [hcnt]
        exact hIb
      · intro s hs hslim
        rcases List.mem_append.mp hs with hs | hs
        · have := hIh s hs
          rw [this] at hslim
          cases hslim
        · simp only [List.mem_singleton] at hs
          rw [hs, mkSnap_status] at hslim
          cases hslim
    · rw [he] at hstep
      simp only [StepRes.done.injEq] at hstep
      rw [← hstep]
      have hiter : st2.iterations = MAX_ITERATIONS := by omega
      have hcnt : exploringCount (st2.history ++
          [mkSnap st2.queue st2.visited st2.parents none .limit_reached]) =
          MAX_ITERATIONS := by
        rw [exploringCount_append, exploringCount_single, mkSnap_status]
        rw [if_neg (by decide), hIc, hiter]
        omega
      constructor
      · rw [hcnt]
      · intro s hs hslim
        rcases List.mem_append.mp hs with hs | hs
        · have := hIh s hs
          rw [this] at hslim
          cases hslim
        · simp only [List.mem_singleton] at hs
          rw [hs]
          constructor
          · rw [List.getLast?_concat]
          · exact hcnt
    · have hhistE1 : ∀ s ∈ histE, s.status = .exploring := by
        rw [hhist]
        intro s hs
        rcases List.mem_append.mp hs with hs | hs
        · exact hIh s hs
        · simp only [List.mem_singleton] at hs
          rw [hs, mkSnap_status]
      have hhistEc : exploringCount histE = st2.iterations + 1 := by
        rw [hhist, exploringCount_append, exploringCount_single, mkSnap_status]
        rw [if_pos rfl, hIc]
      rcases hcase with ⟨_, _, he⟩ | ⟨hndup, hcost, hid, he⟩ | ⟨hndup, hnfound, hpn⟩
      · rw [he] at hstep
        cases hstep
      · rw [he] at hstep
        simp only [StepRes.done.injEq] at hstep
        rw [← hstep]
        have hcnt : exploringCount (histE ++
            [mkSnap queue1 (vadd st2.visited headItem.id) st2.parents
              (some headItem.id) .found]) = st2.iterations + 1 := by
          rw [exploringCount_append, exploringCount_single, mkSnap_status]
          rw [if_neg (by decide), hhistEc]
        constructor
        · rw [hcnt]
          exact hlim
        · intro s hs hslim
          rcases List.mem_append.mp hs with hs | hs
          · have := hhistE1 s hs
            rw [this] at hslim
            cases hslim
          · simp only [List.mem_singleton] at hs
            rw [hs, mkSnap_status] at hslim
            cases hslim
      · rcases hpn with ⟨_, he⟩ | ⟨h2, hpnEq, he⟩ | ⟨q, p, _, he⟩
        · rw [he] at hstep
          cases hstep
        · rw [he] at hstep
          simp only [StepRes.done.injEq] at hstep
          rw [← hstep]
          rcases pn_shape nodes endId ty opts headItem (vadd st2.visited headItem.id)
              histE nbs queue1 st2.parents with
            hsh | ⟨q2, p2, hsh, _⟩ | ⟨q2, p2, c, n, _, hsh, _⟩
          · rw [hpnEq] at hsh
            cases hsh
          · rw [hpnEq] at hsh
            cases hsh
          · rw [hpnEq] at hsh
            simp only [NbRes.halt.injEq] at hsh
            rw [hsh]
            have hcnt : exploringCount (histE ++
                [mkSnap (q2 ++ [⟨endId, c, 0, none, n⟩])
                  (vadd st2.visited headItem.id) p2 (some endId) .found]) =
                st2.iterations + 1 := by
              rw [exploringCount_append, exploringCount_single, mkSnap_status]
              rw [if_neg (by decide), hhistEc]
            constructor
            · rw [hcnt]
              exact hlim
            · intro s hs hslim
              rcases List.mem_append.mp hs with hs | hs
              · have := hhistE1 s hs
                rw [this] at hslim
                cases hslim
              · simp only [List.mem_singleton] at hs
                rw [hs, mkSnap_status] at hslim
                cases hslim
        · rw [he] at hstep
          cases hstep
  · intro st2 st3 hI hstep
    obtain ⟨hIc, hIb, hIh⟩ := hI
    rcases runStep_shape nodes adj endId ty opts st2 with
      ⟨hq, he⟩ | ⟨hq, hlim, he⟩ |
      ⟨Q, headItem, nbs, histE, queue1, hne, hlim, hQ, hhd, hnbs, hhist, hq1, hcase⟩
    · rw [he] at hstep; cases hstep
    · rw [he] at hstep; cases hstep
    · have hhistE1 : ∀ s ∈ histE, s.status = .exploring := by
        rw [hhist]
        intro s hs
        rcases List.mem_append.mp hs with hs | hs
        · exact hIh s hs
        · simp only [List.mem_singleton] at hs
          rw [hs, mkSnap_status]
      have hhistEc : exploringCount histE = st2.iterations + 1 := by
        rw [hhist, exploringCount_append, exploringCount_single, mkSnap_status]
        rw [if_pos rfl, hIc]
      rcases hcase with ⟨_, _, he⟩ | ⟨_, _, _, he⟩ | ⟨_, _, hpn⟩
      · rw [he] at hstep
        simp only [StepRes.next.injEq] at hstep
        rw [← hstep]
        exact ⟨hhistEc, hlim, hhistE1⟩
      · rw [he] at hstep; cases hstep
      · rcases hpn with ⟨_, he⟩ | ⟨h2, _, he⟩ | ⟨q, p, _, he⟩
        · rw [he] at hstep; cases hstep
        · rw [he] at hstep; cases hstep
        · rw [he] at hstep
          simp only [StepRes.next.injEq] at hstep
          rw [← hstep]
          exact ⟨hhistEc, hlim, hhistE1⟩

/-! ## Lemmas about the bidirectional loop -/

theorem expand_mono (adj : Adj) (c : Nat) :
    ∀ (l : List AdjEntry) (v : List Nat) (p : List (Nat × Nat)) (q : List Nat),
      ∀ x ∈ v, x ∈ (l.foldl (fun acc e =>
        if e.toId ∈ acc.1 then acc
        else (acc.1 ++ [e.toId], pset acc.2.1 e.toId c, acc.2.2 ++ [e.toId]))
        (v, p, q)).1
  | [], v, p, q => by
    intro x hx
    exact hx
  | e :: rest, v, p, q => by
    intro x hx
    rw [List.foldl_cons]
    by_cases hm : e.toId ∈ v
    · rw [if_pos hm]
      exact expand_mono adj c rest v p q x hx
    · rw [if_neg hm]
      exact expand_mono adj c rest (v ++ [e.toId]) _ _ x (List.mem_append_left _ hx)

theorem expand_covers (adj : Adj) (c : Nat) :
    ∀ (l : List AdjEntry) (v : List Nat) (p : List (Nat × Nat)) (q : List Nat),
      ∀ a ∈ l, a.toId ∈ (l.foldl (fun acc e =>
        if e.toId ∈ acc.1 then acc
        else (acc.1 ++ [e.toId], pset acc.2.1 e.toId c, acc.2.2 ++ [e.toId]))
        (v, p, q)).1
  | [], v, p, q => by
    intro a ha
    cases ha
  | e :: rest, v, p, q => by
    intro a ha
    rw [List.foldl_cons]
    rcases List.mem_cons.mp ha with ha | ha
    · by_cases hm : e.toId ∈ v
      · rw [if_pos hm, ha]
        exact expand_mono adj c rest v p q e.toId hm
      · rw [if_neg hm, ha]
        exact expand_mono adj c rest (v ++ [e.toId]) _ _ e.toId
          (List.mem_append_right _ (List.mem_singleton.mpr rfl))
    · by_cases hm : e.toId ∈ v
      · rw [if_pos hm]
        exact expand_covers adj c rest v p q a ha
      · rw [if_neg hm]
        exact expand_covers adj c rest (v ++ [e.toId]) _ _ a ha

theorem expand_pairs (adj : Adj) (c : Nat) :
    ∀ (l : List AdjEntry) (v : List Nat) (p : List (Nat × Nat)) (q : List Nat),
      ∀ pr ∈ (l.foldl (fun acc e =>
        if e.toId ∈ acc.1 then acc
        else (acc.1 ++ [e.toId], pset acc.2.1 e.toId c, acc.2.2 ++ [e.toId]))
        (v, p, q)).2.1,
        pr ∈ p ∨ (pr.2 = c ∧ (∃ a ∈ l, a.toId = pr.1) ∧ pr.1 ∉ v)
  | [], v, p, q => by
    intro pr hpr
    exact Or.inl hpr
  | e :: rest, v, p, q => by
    intro pr hpr
    rw [List.foldl_cons] at hpr
    by_cases hm : e.toId ∈ v
    · rw [if_pos hm] at hpr
      rcases expand_pairs adj c rest v p q pr hpr with h | ⟨h1, ⟨a, ha, h2⟩, h3⟩
      · exact Or.inl h
      · exact Or.inr ⟨h1, ⟨a, List.mem_cons_of_mem e ha, h2⟩, h3⟩
    · rw [if_neg hm] at hpr
      rcases expand_pairs adj c rest (v ++ [e.toId]) _ _ pr hpr with h | ⟨h1, ⟨a, ha, h2⟩, h3⟩
      · rcases mem_pset e.toId c p pr h with h4 | h4
        · exact Or.inl h4
        · refine Or.inr ⟨by rw [h4], ⟨e, List.mem_cons_self e rest, by rw [h4]⟩, ?_⟩
          rw [h4]
          exact hm
      · refine Or.inr ⟨h1, ⟨a, List.mem_cons_of_mem e ha, h2⟩, ?_⟩
        intro hmem
        exact h3 (List.mem_append_left _ hmem)

theorem expand_queue (adj : Adj) (c : Nat) :
    ∀ (l : List AdjEntry) (v : List Nat) (p : List (Nat × Nat)) (q : List Nat),
      ∀ x ∈ (l.foldl (fun acc e =>
        if e.toId ∈ acc.1 then acc
        else (acc.1 ++ [e.toId], pset acc.2.1 e.toId c, acc.2.2 ++ [e.toId]))
        (v, p, q)).2.2,
        x ∈ q ∨ x ∈ (l.foldl (fun acc e =>
          if e.toId ∈ acc.1 then acc
          else (acc.1 ++ [e.toId], pset acc.2.1 e.toId c, acc.2.2 ++ [e.toId]))
          (v, p, q)).1
  | [], v, p, q => by
    intro x hx
    exact Or.inl hx
  | e :: rest, v, p, q => by
    intro x hx
    rw [List.foldl_cons] at hx ⊢
    by_cases hm : e.toId ∈ v
    · rw [if_pos hm] at hx ⊢
      exact expand_queue adj c rest v p q x hx
    · rw [if_neg hm] at hx ⊢
      rcases expand_queue adj c rest (v ++ [e.toId]) _ _ x hx with h | h
      · rcases List.mem_append.mp h with h | h
        · exact Or.inl h
        · simp only [List.mem_singleton] at h
          right
          rw [h]
          exact expand_mono adj c rest (v ++ [e.toId]) _ _ e.toId
            (List.mem_append_right _ (List.mem_singleton.mpr rfl))
      · exact Or.inr h

theorem expand_eq (adj : Adj) (c : Nat) (v : List Nat) (p : List (Nat × Nat))
    (q : List Nat) :
    expand adj c v p q = (((aget adj c).getD []).foldl (fun acc e =>
      if e.toId ∈ acc.1 then acc
      else (acc.1 ++ [e.toId], pset acc.2.1 e.toId c, acc.2.2 ++ [e.toId]))
      (v, p, q)) := rfl

theorem biStep_shape (adj : Adj) (st : BiSt) :
    (biStep adj st = .done st.history ∧ (st.qStart = [] ∨ st.qEnd = [])) ∨
    (∃ s1 sRest e1 eRest, st.qStart = s1 :: sRest ∧ st.qEnd = e1 :: eRest ∧
      ((s1 ∈ st.visitedEnd ∧ biStep adj st = .done (st.history ++
        [⟨biQueue sRest (e1 :: eRest), mergeSet st.visitedStart st.visitedEnd,
          pmerge st.parentStart st.parentEnd, some s1, .found,
          some .fromStart, some s1⟩])) ∨
      (s1 ∉ st.visitedEnd ∧ e1 ∈ (expand adj s1 st.visitedStart st.parentStart sRest).1 ∧
        biStep adj st = .done (st.history ++
          [⟨biQueue sRest (e1 :: eRest), mergeSet st.visitedStart st.visitedEnd,
            pmerge st.parentStart st.parentEnd, some s1, .exploring,
            some .fromStart, none⟩,
           ⟨biQueue (expand adj s1 st.visitedStart st.parentStart sRest).2.2 eRest,
            mergeSet (expand adj s1 st.visitedStart st.parentStart sRest).1
              st.visitedEnd,
            pmerge (expand adj s1 st.visitedStart st.parentStart sRest).2.1
              st.parentEnd, some e1, .found, some .fromEnd, some e1⟩])) ∨
      (s1 ∉ st.visitedEnd ∧ e1 ∉ (expand adj s1 st.visitedStart st.parentStart sRest).1 ∧
        biStep adj st = .next
          ⟨(expand adj s1 st.visitedStart st.parentStart sRest).2.2,
           (expand adj e1 st.visitedEnd st.parentEnd eRest).2.2,
           (expand adj s1 st.visitedStart st.parentStart sRest).1,
           (expand adj e1 st.visitedEnd st.parentEnd eRest).1,
           (expand adj s1 st.visitedStart st.parentStart sRest).2.1,
           (expand adj e1 st.visitedEnd st.parentEnd eRest).2.1,
           st.history ++
            [⟨biQueue sRest (e1 :: eRest), mergeSet st.visitedStart st.visitedEnd,
              pmerge st.parentStart st.parentEnd, some s1, .exploring,
              some .fromStart, none⟩,
             ⟨biQueue (expand adj s1 st.visitedStart st.parentStart sRest).2.2 eRest,
              mergeSet (expand adj s1 st.visitedStart st.parentStart sRest).1
                st.visitedEnd,
              pmerge (expand adj s1 st.visitedStart st.parentStart sRest).2.1
                st.parentEnd, some e1, .exploring, some .fromEnd, none⟩]⟩))) := by
  simp only [biStep]
  split
  · rename_i s1 sRest e1 eRest hqs hqe
    right
    refine ⟨s1, sRest, e1, eRest, hqs, hqe, ?_⟩
    split
    · rename_i hf1
      simp only [decide_eq_true_eq] at hf1
      left
      exact ⟨hf1, rfl⟩
    · rename_i hf1
      have hf1' : s1 ∉ st.visitedEnd := by
        intro hc
        rw [decide_eq_true_eq.mpr hc] at hf1
        exact hf1 rfl
      right
      split
      · rename_i hf2
        simp only [decide_eq_true_eq] at hf2
        left
        exact ⟨hf1', hf2, rfl⟩
      · rename_i hf2
        have hf2' : e1 ∉ (expand adj s1 st.visitedStart st.parentStart sRest).1 := by
          intro hc
          rw [decide_eq_true_eq.mpr hc] at hf2
          exact hf2 rfl
        right
        exact ⟨hf1', hf2', rfl⟩
  · rename_i hq
    left
    refine ⟨rfl, ?_⟩
    rcases hqs : st.qStart with _ | ⟨s1, sRest⟩
    · exact Or.inl rfl
    · rcases hqe : st.qEnd with _ | ⟨e1, eRest⟩
      · exact Or.inr rfl
      · exact (hq s1 sRest e1 eRest hqs hqe).elim

theorem biLoop_inv (adj : Adj) (Inv : BiSt → Prop) (Q : List Snapshot → Prop)
    (hdone : ∀ st h, Inv st → biStep adj st = .done h → Q h)
    (hnext : ∀ st st1, Inv st → biStep adj st = .next st1 → Inv st1) :
    ∀ (fuel : Nat) (st : BiSt), Inv st →
      ∀ h, biLoop adj fuel st = some h → Q h
  | 0, st => by
    intro _ h hr
    cases hr
  | fuel + 1, st => by
    intro hInv h hr
    rw [biLoop] at hr
    cases hstep : biStep adj st with
    | done h2 =>
      rw [hstep] at hr
      simp only [Option.some.injEq] at hr
      rw [← hr]
      exact hdone st h2 hInv hstep
    | crash =>
      rw [hstep] at hr
      cases hr
    | next st1 =>
      rw [hstep] at hr
      exact biLoop_inv adj Inv Q hdone hnext fuel st1
        (hnext st st1 hInv hstep) h hr

theorem expand_mono_e (adj : Adj) (c : Nat) (v : List Nat)
    (p : List (Nat × Nat)) (q : List Nat) :
    ∀ x ∈ v, x ∈ (expand adj c v p q).1 := by
  rw [expand_eq]
  exact expand_mono adj c _ v p q

theorem expand_covers_e (adj : Adj) (c : Nat) (v : List Nat)
    (p : List (Nat × Nat)) (q : List Nat) :
    ∀ a ∈ (aget adj c).getD [], a.toId ∈ (expand adj c v p q).1 := by
  rw [expand_eq]
  exact expand_covers adj c _ v p q

theorem expand_pairs_e (adj : Adj) (c : Nat) (v : List Nat)
    (p : List (Nat × Nat)) (q : List Nat) :
    ∀ pr ∈ (expand adj c v p q).2.1, pr ∈ p ∨
      (pr.2 = c ∧ (∃ a ∈ (aget adj c).getD [], a.toId = pr.1) ∧ pr.1 ∉ v) := by
  rw [expand_eq]
  exact expand_pairs adj c _ v p q

theorem expand_queue_e (adj : Adj) (c : Nat) (v : List Nat)
    (p : List (Nat × Nat)) (q : List Nat) :
    ∀ x ∈ (expand adj c v p q).2.2, x ∈ q ∨ x ∈ (expand adj c v p q).1 := by
  rw [expand_eq]
  exact expand_queue adj c _ v p q

/-! ## Status discipline of the bidirectional loop -/

theorem biLoop_statuses (adj : Adj) (fuel : Nat) (st : BiSt)
    (hInv : ∀ s ∈ st.history, s.status = .exploring) :
    ∀ h, biLoop adj fuel st = some h → BiStatusOK h := by
  apply biLoop_inv adj (fun st2 => ∀ s ∈ st2.history, s.status = .exploring)
    BiStatusOK ?_ ?_ fuel st hInv
  · intro st2 h hI hstep
    rcases biStep_shape adj st2 with ⟨he, _⟩ |
      ⟨s1, sRest, e1, eRest, hqs, hqe,
        ⟨hf1, he⟩ | ⟨hf1, hf2, he⟩ | ⟨hf1, hf2, he⟩⟩
    · rw [he] at hstep
      simp only [StepRes.done.injEq] at hstep
      rw [← hstep]
      refine ⟨fun s hs => hI s (List.dropLast_subset _ hs),
        fun s hs => Or.inl (hI s hs)⟩
    · rw [he] at hstep
      simp only [StepRes.done.injEq] at hstep
      rw [← hstep]
      constructor
      · rw [List.dropLast_concat]
        exact hI
      · intro s hs
        rcases List.mem_append.mp hs with hs | hs
        · exact Or.inl (hI s hs)
        · simp only [List.mem_singleton] at hs
          rw [hs]
          exact Or.inr rfl
    · rw [he] at hstep
      simp only [StepRes.done.injEq] at hstep
      rw [← hstep]
      constructor
      · rw [List.append_cons, List.dropLast_concat]
        intro s hs
        rcases List.mem_append.mp hs with hs | hs
        · exact hI s hs
        · simp only [List.mem_singleton] at hs
          rw [hs]
      · intro s hs
        rcases List.mem_append.mp hs with hs | hs
        · exact Or.inl (hI s hs)
        · rcases List.mem_cons.mp hs with hs | hs
          · rw [hs]
            exact Or.inl rfl
          · simp only [List.mem_singleton] at hs
            rw [hs]
            exact Or.inr rfl
    · rw [he] at hstep
      cases hstep
  · intro st2 st3 hI hstep
    rcases biStep_shape adj st2 with ⟨he, _⟩ |
      ⟨s1, sRest, e1, eRest, hqs, hqe,
        ⟨hf1, he⟩ | ⟨hf1, hf2, he⟩ | ⟨hf1, hf2, he⟩⟩
    · rw [he] at hstep; cases hstep
    · rw [he] at hstep; cases hstep
    · rw [he] at hstep; cases hstep
    · rw [he] at hstep
      simp only [StepRes.next.injEq] at hstep
      rw [← hstep]
      intro s hs
      rcases List.mem_append.mp hs with hs | hs
      · exact hI s hs
      · rcases List.mem_cons.mp hs with hs | hs
        · rw [hs]
        · simp only [List.mem_singleton] at hs
          rw [hs]

/-! ## Parents-map invariant of the bidirectional loop -/

theorem biSnap1_parents (startId : Nat) (vS vE : List Nat)
    (pS pE : List (Nat × Nat))
    (hS : ∀ pr ∈ pS, pr.1 ≠ startId ∧ pr.2 ∈ vS)
    (hE : ∀ pr ∈ pE, pr.1 ≠ startId ∧ pr.2 ∈ vE) :
    ∀ pr ∈ pmerge pS pE, pr.1 ≠ startId ∧ pr.2 ∈ mergeSet vS vE := by
  intro pr hpr
  rcases mem_pmerge pr pE pS hpr with h | h
  · obtain ⟨h1, h2⟩ := hS pr h
    exact ⟨h1, (mem_mergeSet pr.2 vE vS).mpr (Or.inl h2)⟩
  · obtain ⟨h1, h2⟩ := hE pr h
    exact ⟨h1, (mem_mergeSet pr.2 vE vS).mpr (Or.inr h2)⟩

theorem expandS_parents (adj : Adj) (startId s1 : Nat) (vS : List Nat)
    (pS : List (Nat × Nat)) (sRest : List Nat)
    (hS : ∀ pr ∈ pS, pr.1 ≠ startId ∧ pr.2 ∈ vS)
    (hstart : startId ∈ vS) (hs1 : s1 ∈ vS) :
    ∀ pr ∈ (expand adj s1 vS pS sRest).2.1,
      pr.1 ≠ startId ∧ pr.2 ∈ (expand adj s1 vS pS sRest).1 := by
  intro pr hpr
  rcases expand_pairs_e adj s1 vS pS sRest pr hpr with h | ⟨h1, _, h3⟩
  · obtain ⟨h4, h5⟩ := hS pr h
    exact ⟨h4, expand_mono_e adj s1 vS pS sRest pr.2 h5⟩
  · refine ⟨?_, ?_⟩
    · intro hc
      rw [hc] at h3
      exact h3 hstart
    · rw [h1]
      exact expand_mono_e adj s1 vS pS sRest s1 hs1

theorem biSnap2_parents (adj : Adj) (startId s1 : Nat) (vS vE : List Nat)
    (pS pE : List (Nat × Nat)) (sRest : List Nat)
    (hS : ∀ pr ∈ pS, pr.1 ≠ startId ∧ pr.2 ∈ vS)
    (hE : ∀ pr ∈ pE, pr.1 ≠ startId ∧ pr.2 ∈ vE)
    (hstart : startId ∈ vS) (hs1 : s1 ∈ vS) :
    ∀ pr ∈ pmerge (expand adj s1 vS pS sRest).2.1 pE,
      pr.1 ≠ startId ∧ pr.2 ∈ mergeSet (expand adj s1 vS pS sRest).1 vE := by
  intro pr hpr
  rcases mem_pmerge pr pE _ hpr with h | h
  · obtain ⟨h1, h2⟩ := expandS_parents adj startId s1 vS pS sRest hS hstart hs1 pr h
    exact ⟨h1, (mem_mergeSet pr.2 vE _).mpr (Or.inl h2)⟩
  · obtain ⟨h1, h2⟩ := hE pr h
    exact ⟨h1, (mem_mergeSet pr.2 vE _).mpr (Or.inr h2)⟩

theorem expandE_parents (adj : Adj) (startId e1 : Nat) (hsym : AdjSym adj)
    (vE : List Nat) (pE : List (Nat × Nat)) (eRest : List Nat)
    (exS1 : List Nat)
    (hE : ∀ pr ∈ pE, pr.1 ≠ startId ∧ pr.2 ∈ vE)
    (he1 : e1 ∈ vE)
    (hcov : ∀ a ∈ (aget adj startId).getD [], a.toId ∈ exS1)
    (hne : e1 ∉ exS1) :
    ∀ pr ∈ (expand adj e1 vE pE eRest).2.1,
      pr.1 ≠ startId ∧ pr.2 ∈ (expand adj e1 vE pE eRest).1 := by
  intro pr hpr
  rcases expand_pairs_e adj e1 vE pE eRest pr hpr with h | ⟨h1, ⟨a, ha, ha2⟩, _⟩
  · obtain ⟨h4, h5⟩ := hE pr h
    exact ⟨h4, expand_mono_e adj e1 vE pE eRest pr.2 h5⟩
  · refine ⟨?_, ?_⟩
    · intro hc
      obtain ⟨b, hb, hb2⟩ := hsym e1 startId ⟨a, ha, by rw [ha2, hc]⟩
      have h6 := hcov b hb
      rw [hb2] at h6
      exact hne h6
    · rw [h1]
      exact expand_mono_e adj e1 vE pE eRest e1 he1

theorem biLoop_parents (adj : Adj) (startId : Nat) (hsym : AdjSym adj)
    (fuel : Nat) (st : BiSt) (hInv : BiPInv adj startId st) :
    ∀ h, biLoop adj fuel st = some h →
      ∀ s ∈ h, ∀ pr ∈ s.parents, pr.1 ≠ startId ∧ pr.2 ∈ s.visited := by
  apply biLoop_inv adj (BiPInv adj startId)
    (fun h => ∀ s ∈ h, ∀ pr ∈ s.parents, pr.1 ≠ startId ∧ pr.2 ∈ s.visited)
    ?_ ?_ fuel st hInv
  · intro st2 h hI hstep
    obtain ⟨hI1, hI2, hI3, hI4, hI5, hI6, hI7⟩ := hI
    rcases biStep_shape adj st2 with ⟨he, _⟩ |
      ⟨s1, sRest, e1, eRest, hqs, hqe,
        ⟨hf1, he⟩ | ⟨hf1, hf2, he⟩ | ⟨hf1, hf2, he⟩⟩
    · rw [he] at hstep
      simp only [StepRes.done.injEq] at hstep
      rw [← hstep]
      exact hI7
    · rw [he] at hstep
      simp only [StepRes.done.injEq] at hstep
      rw [← hstep]
      intro s hs
      rcases List.mem_append.mp hs with hs | hs
      · exact hI7 s hs
      · simp only [List.mem_singleton] at hs
        rw [hs]
        exact biSnap1_parents startId _ _ _ _ hI2 hI3
    · rw [he] at hstep
      simp only [StepRes.done.injEq] at hstep
      rw [← hstep]
      have hs1v : s1 ∈ st2.visitedStart := by
        apply hI4
        rw [hqs]
        exact List.mem_cons_self s1 sRest
      intro s hs
      rcases List.mem_append.mp hs with hs | hs
      · exact hI7 s hs
      · rcases List.mem_cons.mp hs with hs | hs
        · rw [hs]
          exact biSnap1_parents startId _ _ _ _ hI2 hI3
        · simp only [List.mem_singleton] at hs
          rw [hs]
          exact biSnap2_parents adj startId s1 _ _ _ _ _ hI2 hI3 hI1 hs1v
    · rw [he] at hstep
      cases hstep
  · intro st2 st3 hI hstep
    obtain ⟨hI1, hI2, hI3, hI4, hI5, hI6, hI7⟩ := hI
    rcases biStep_shape adj st2 with ⟨he, _⟩ |
      ⟨s1, sRest, e1, eRest, hqs, hqe,
        ⟨hf1, he⟩ | ⟨hf1, hf2, he⟩ | ⟨hf1, hf2, he⟩⟩
    · rw [he] at hstep; cases hstep
    · rw [he] at hstep; cases hstep
    · rw [he] at hstep; cases hstep
    · rw [he] at hstep
      simp only [StepRes.next.injEq] at hstep
      rw [← hstep]
      have hs1v : s1 ∈ st2.visitedStart := by
        apply hI4
        rw [hqs]
        exact List.mem_cons_self s1 sRest
      have he1v : e1 ∈ st2.visitedEnd := by
        apply hI5
        rw [hqe]
        exact List.mem_cons_self e1 eRest
      have hcov : ∀ a ∈ (aget adj startId).getD [],
          a.toId ∈ (expand adj s1 st2.visitedStart st2.parentStart sRest).1 := by
        rcases hI6 with hseed | hdone2
        · rw [hqs] at hseed
          obtain ⟨hs1e, _⟩ := List.cons_eq_cons.mp hseed
          rw [← hs1e]
          exact expand_covers_e adj s1 st2.visitedStart st2.parentStart sRest
        · intro a ha
          exact expand_mono_e adj s1 st2.visitedStart st2.parentStart sRest
            a.toId (hdone2 a ha)
      refine ⟨?_, ?_, ?_, ?_, ?_, ?_, ?_⟩
      · exact expand_mono_e adj s1 st2.visitedStart st2.parentStart sRest
          startId hI1
      · exact expandS_parents adj startId s1 _ _ _ hI2 hI1 hs1v
      · exact expandE_parents adj startId e1 hsym _ _ _ _ hI3 he1v hcov hf2
      · intro x hx
        rcases expand_queue_e adj s1 st2.visitedStart st2.parentStart sRest
            x hx with hmem | hmem
        · apply expand_mono_e adj s1 st2.visitedStart st2.parentStart sRest
          apply hI4
          rw [hqs]
          exact List.mem_cons_of_mem s1 hmem
        · exact hmem
      · intro x hx
        rcases expand_queue_e adj e1 st2.visitedEnd st2.parentEnd eRest
            x hx with hmem | hmem
        · apply expand_mono_e adj e1 st2.visitedEnd st2.parentEnd eRest
          apply hI5
          rw [hqe]
          exact List.mem_cons_of_mem e1 hmem
        · exact hmem
      · exact Or.inr hcov
      · intro s hs
        rcases List.mem_append.mp hs with hs | hs
        · exact hI7 s hs
        · rcases List.mem_cons.mp hs with hs | hs
          · rw [hs]
            exact biSnap1_parents startId _ _ _ _ hI2 hI3
          · simp only [List.mem_singleton] at hs
            rw [hs]
            exact biSnap2_parents adj startId s1 _ _ _ _ _ hI2 hI3 hI1 hs1v

/-! ## Case analysis of the engine entry point -/

theorem runSearch_none (nodes : List Node) (edges : List Edge)
    (startId endId : Nat) (ty : Strategy) (opts : Options)
    (hadj : buildAdjacency nodes edges = none) :
    runSearch nodes edges startId endId ty opts = none := by
  unfold runSearch
  rw [hadj]

theorem runSearch_eq_cases (nodes : List Node) (edges : List Edge)
    (startId endId : Nat) (ty : Strategy) (opts : Options) (adj : Adj)
    (hadj : buildAdjacency nodes edges = some adj) :
    runSearch nodes edges startId endId ty opts =
      if ty = .BiBFS then
        biLoop adj (2 + 2 * edges.length)
          ⟨[startId], [endId], [startId], [endId], [], [], []⟩
      else if startId = endId then
        some [mkSnap [⟨startId, 0, 0, none, 0⟩] [] [] (some startId) .found]
      else
        runLoop nodes adj endId ty opts (MAX_ITERATIONS + 1)
          ⟨[⟨startId, 0, 0, none, 0⟩], [], [], [], 0⟩ := by
  unfold runSearch
  rw [hadj]

theorem biLoop_self (adj : Adj) (s : Nat) (fuel : Nat) :
    biLoop adj (fuel + 1) ⟨[s], [s], [s], [s], [], [], []⟩ =
      some [selfFoundSnapBi s] := by
  rw [biLoop]
  have h : biStep adj ⟨[s], [s], [s], [s], [], [], []⟩ =
      .done [selfFoundSnapBi s] := by
    simp [biStep, biQueue, mergeSet, vadd, pmerge, selfFoundSnapBi]
  rw [h]

theorem heur_from_closed (nodes : List Node) (endId : Nat)
    (ht : HeuristicType) (adj : Adj) (hcl : AdjClosed nodes adj)
    (hok : HeurOK nodes endId ht) :
    ∀ k l, aget adj k = some l → ∀ a ∈ l,
      getHeuristic nodes endId ht a.toId ≠ none := by
  intro k l hl a ha
  have h1 := hcl.2 k l hl a ha
  rw [List.any_eq_true] at h1
  obtain ⟨n, hn, he⟩ := h1
  rw [decide_eq_true_eq] at he
  rw [← he]
  exact hok n hn

/-! ## The claims -/

/-- C1 (corrected): statuses of a recorded history.  For the four
unidirectional strategies every run is zero or more `exploring` snapshots
followed by exactly one terminal snapshot (`GoodHistory`).  A
bidirectional run keeps every snapshot before the last `exploring` and
only ever records `exploring` or `found` (`BiStatusOK`): when a frontier
empties without an intersection the history ends on `exploring`
snapshots, with no terminal snapshot at all — not, as claimed, on a
terminal status. -/
theorem c1_statuses (nodes : List Node) (edges : List Edge)
    (startId endId : Nat) (ty : Strategy) (opts : Options) (h : List Snapshot)
    (hr : runSearch nodes edges startId endId ty opts = some h) :
    (ty = .BiBFS → BiStatusOK h) ∧ (ty ≠ .BiBFS → GoodHistory h) := by
  cases hadj : buildAdjacency nodes edges with
  | none =>
    rw [runSearch_none nodes edges startId endId ty opts hadj] at hr
    cases hr
  | some adj =>
    rw [runSearch_eq_cases nodes edges startId endId ty opts adj hadj] at hr
    by_cases hbi : ty = .BiBFS
    · rw [if_pos hbi] at hr
      refine ⟨fun _ => ?_, fun hn => absurd hbi hn⟩
      exact biLoop_statuses adj _ _
        (fun s hs => absurd hs (List.not_mem_nil s)) h hr
    · rw [if_neg hbi] at hr
      refine ⟨fun hb => absurd hb hbi, fun _ => ?_⟩
      by_cases hse : startId = endId
      · rw [if_pos hse] at hr
        simp only [Option.some.injEq] at hr
        rw [← hr]
        exact ⟨[], _, rfl, fun s hs => absurd hs (List.not_mem_nil s),
          by rw [mkSnap_status]; decide⟩
      · rw [if_neg hse] at hr
        exact runLoop_statuses nodes adj endId ty opts _ _
          (fun s hs => absurd hs (List.not_mem_nil s)) h hr

theorem c1_statuses_witness :
    runSearch wNodes wEdges 0 1 .BFS ⟨true, .euclidean⟩ =
      some ((runSearch wNodes wEdges 0 1 .BFS ⟨true, .euclidean⟩).getD []) ∧
    ((Strategy.BFS = .BiBFS →
      BiStatusOK ((runSearch wNodes wEdges 0 1 .BFS ⟨true, .euclidean⟩).getD [])) ∧
    (Strategy.BFS ≠ .BiBFS →
      GoodHistory ((runSearch wNodes wEdges 0 1 .BFS ⟨true, .euclidean⟩).getD []))) :=
  ⟨rfl, c1_statuses wNodes wEdges 0 1 .BFS ⟨true, .euclidean⟩ _ rfl⟩

theorem c1_cex :
    (runSearch discNodes [] 0 1 .BiBFS ⟨true, .euclidean⟩).map
      (List.map Snapshot.status) = some [.exploring, .exploring] := by
  rfl

/-- C2 (corrected): a run with `startId = endId` records exactly one `found`
snapshot, but its frontier is not empty and (for `BiBFS`) the loop does
iterate once.  The unidirectional special case keeps the seed item in the
snapshot's queue; `BiBFS` is dispatched before the special case, performs one
loop pass, and its single snapshot keeps the end-side seed in the queue and
the start node in `visited`. -/
theorem c2_self (nodes : List Node) (edges : List Edge) (s : Nat)
    (ty : Strategy) (opts : Options) (adj : Adj)
    (hadj : buildAdjacency nodes edges = some adj) :
    runSearch nodes edges s s ty opts =
      some [if ty = .BiBFS then selfFoundSnapBi s else selfFoundSnapUni s] := by
  rw [runSearch_eq_cases nodes edges s s ty opts adj hadj]
  by_cases hbi : ty = .BiBFS
  · rw [if_pos hbi, if_pos hbi]
    have h2 : 2 + 2 * edges.length = (1 + 2 * edges.length) + 1 := by omega
    rw [h2, biLoop_self]
  · rw [if_neg hbi, if_pos rfl, if_neg hbi]
    rfl

theorem c2_self_witness :
    buildAdjacency [trivNode] [] = some [(0, [])] ∧
    runSearch [trivNode] [] 0 0 .BFS ⟨true, .euclidean⟩ =
      some [if Strategy.BFS = .BiBFS then selfFoundSnapBi 0
        else selfFoundSnapUni 0] :=
  ⟨rfl, c2_self [trivNode] [] 0 .BFS ⟨true, .euclidean⟩ [(0, [])] rfl⟩

theorem c2_cex :
    (runSearch [⟨7, 0, 0, 'S', none⟩] [] 7 7 .BFS ⟨true, .euclidean⟩).map
      (List.map (fun s => s.queue.length)) = some [1] := by
  rfl

/-- C3 (corrected): when the preset heuristic is requested for a node that
carries no fixed `h`, `getHeuristic` does not surface an error — it silently
falls through to the Euclidean distance to the goal. -/
theorem c3_preset_fallback (nodes : List Node) (endId nodeId : Nat)
    (node : Node) (hfind : nodes.find? (fun n => n.id = nodeId) = some node)
    (hh : node.h = none) :
    getHeuristic nodes endId .preset nodeId =
      (nodes.find? (fun n => n.id = endId)).map
        (fun goal => distFloor node goal) := by
  unfold getHeuristic
  rw [hfind]
  show (if HeuristicType.preset = HeuristicType.preset ∧ node.h ≠ none then node.h
    else if HeuristicType.preset = HeuristicType.zero then some 0
    else (nodes.find? (fun n => n.id = endId)).map
      (fun goal => distFloor node goal)) = _
  rw [if_neg (by simp [hh]), if_neg (by decide)]

theorem c3_preset_fallback_witness :
    c3Nodes.find? (fun n => n.id = 0) = some ⟨0, 0, 0, 'S', none⟩ ∧
    getHeuristic c3Nodes 1 .preset 0 =
      (c3Nodes.find? (fun n => n.id = 1)).map
        (fun goal => distFloor ⟨0, 0, 0, 'S', none⟩ goal) :=
  ⟨rfl, c3_preset_fallback c3Nodes 1 0 ⟨0, 0, 0, 'S', none⟩ rfl rfl⟩

theorem c3_cex :
    getHeuristic c3Nodes 1 .preset 0 = some 5 := by
  have h1 : getHeuristic c3Nodes 1 .preset 0 =
      some (distFloor ⟨0, 0, 0, 'S', none⟩ ⟨1, 3, 4, 'G', none⟩) := rfl
  rw [h1]
  unfold distFloor
  have h2 : (((0 : Int) - 3) ^ 2 + ((0 : Int) - 4) ^ 2).toNat = 25 := rfl
  rw [h2]
  norm_num

/-- C4 (confirmed): goal-test timing is strategy dependent.  For Dijkstra
and AStar a run (with distinct start and goal) satisfies `PopFoundProp`: it
ends `found` exactly when the popped node is the goal, that snapshot settles
the goal, and no earlier snapshot had it settled.  For BFS and DFS it
satisfies `PushFoundProp`: it ends `found` exactly when the goal is pushed,
immediately after the push, the goal being the last queue item of the
`found` snapshot and still unsettled. -/
theorem c4_goal_timing (nodes : List Node) (edges : List Edge)
    (startId endId : Nat) (ty : Strategy) (opts : Options) (h : List Snapshot)
    (hne : startId ≠ endId)
    (hr : runSearch nodes edges startId endId ty opts = some h) :
    ((ty = .Dijkstra ∨ ty = .AStar) → PopFoundProp endId h) ∧
    ((ty = .BFS ∨ ty = .DFS) → PushFoundProp endId h) := by
  cases hadj : buildAdjacency nodes edges with
  | none =>
    rw [runSearch_none nodes edges startId endId ty opts hadj] at hr
    cases hr
  | some adj =>
    rw [runSearch_eq_cases nodes edges startId endId ty opts adj hadj] at hr
    constructor
    · intro hty
      have hbi : ty ≠ .BiBFS := by
        rcases hty with h2 | h2 <;> rw [h2] <;> decide
      rw [if_neg hbi, if_neg hne] at hr
      apply runLoop_popFound nodes adj endId ty opts hty _ _ ?_ h hr
      exact ⟨List.not_mem_nil endId,
        fun s hs => absurd hs (List.not_mem_nil s)⟩
    · intro hty
      have hbi : ty ≠ .BiBFS := by
        rcases hty with h2 | h2 <;> rw [h2] <;> decide
      rw [if_neg hbi, if_neg hne] at hr
      apply runLoop_pushFound nodes adj endId ty opts hty _ _ ?_ h hr
      refine ⟨List.not_mem_nil endId, ?_,
        fun s hs => absurd hs (List.not_mem_nil s)⟩
      intro it hit
      simp only [List.mem_singleton] at hit
      rw [hit]
      exact hne

theorem c4_goal_timing_witness :
    (0 : Nat) ≠ 1 ∧
    (((Strategy.Dijkstra = .Dijkstra ∨ Strategy.Dijkstra = .AStar) →
      PopFoundProp 1
        ((runSearch wNodes wEdges 0 1 .Dijkstra ⟨true, .euclidean⟩).getD [])) ∧
    ((Strategy.Dijkstra = .BFS ∨ Strategy.Dijkstra = .DFS) →
      PushFoundProp 1
        ((runSearch wNodes wEdges 0 1 .Dijkstra ⟨true, .euclidean⟩).getD []))) :=
  ⟨by decide,
    c4_goal_timing wNodes wEdges 0 1 .Dijkstra ⟨true, .euclidean⟩ _
      (by decide) rfl⟩

/-- C5 (confirmed): for the four unidirectional strategies, on a
well-formed graph whose heuristic queries all succeed, the run always
terminates and returns a history; it performs at most
`MAX_ITERATIONS = 1000` pop iterations (counted by its `exploring`
snapshots), and a `limit_reached` snapshot can only be the last one,
recorded exactly when the count reached the cap. -/
theorem c5_bound (nodes : List Node) (edges : List Edge)
    (startId endId : Nat) (ty : Strategy) (opts : Options) (adj : Adj)
    (hty : ty ≠ .BiBFS) (hne : startId ≠ endId)
    (hadj : buildAdjacency nodes edges = some adj)
    (hok : HeurOK nodes endId opts.heuristicType) :
    ∃ h, runSearch nodes edges startId endId ty opts = some h ∧
      exploringCount h ≤ MAX_ITERATIONS ∧
      ∀ s ∈ h, s.status = .limit_reached →
        h.getLast? = some s ∧ exploringCount h = MAX_ITERATIONS := by
  have hnc : ∀ st, runStep nodes adj endId ty opts st ≠ .crash := by
    intro st
    apply runStep_no_crash nodes adj endId ty opts ?_ st
    intro k l hl a ha _
    exact heur_from_closed nodes endId opts.heuristicType adj
      (buildAdjacency_closed nodes edges adj hadj) hok k l hl a ha
  obtain ⟨h, hrl⟩ := runLoop_total nodes adj endId ty opts hnc
    (MAX_ITERATIONS + 1) ⟨[⟨startId, 0, 0, none, 0⟩], [], [], [], 0⟩
    (by omega) (Nat.zero_le _)
  refine ⟨h, ?_, ?_⟩
  · rw [runSearch_eq_cases nodes edges startId endId ty opts adj hadj,
      if_neg hty, if_neg hne]
    exact hrl
  · exact runLoop_count nodes adj endId ty opts _ _
      ⟨rfl, Nat.zero_le _, fun s hs => absurd hs (List.not_mem_nil s)⟩ h hrl

theorem c5_bound_witness :
    ∃ h, runSearch wNodes wEdges 0 1 .AStar ⟨true, .euclidean⟩ = some h ∧
      exploringCount h ≤ MAX_ITERATIONS ∧
      ∀ s ∈ h, s.status = .limit_reached →
        h.getLast? = some s ∧ exploringCount h = MAX_ITERATIONS :=
  c5_bound wNodes wEdges 0 1 .AStar ⟨true, .euclidean⟩
    [(0, [⟨1, 5⟩]), (1, [⟨0, 5⟩])] (by decide) (by decide) rfl
    (by unfold HeurOK; decide)

/-- C6 (corrected): the parents-map invariant holds as claimed only under
duplicate suppression.  In every snapshot of every run, each parent entry's
value is a node already settled in that snapshot; the start node is never a
key when `checkDuplicates` is on, and never a key in a `BiBFS` run (which
ignores the option); but with suppression disabled a unidirectional run can
record a parent entry for the start node. -/
theorem c6_parents (nodes : List Node) (edges : List Edge)
    (startId endId : Nat) (ty : Strategy) (opts : Options) (h : List Snapshot)
    (hr : runSearch nodes edges startId endId ty opts = some h) :
    ∀ s ∈ h, ParentsOK startId
      (if ty = .BiBFS then true else opts.checkDuplicates) s := by
  cases hadj : buildAdjacency nodes edges with
  | none =>
    rw [runSearch_none nodes edges startId endId ty opts hadj] at hr
    cases hr
  | some adj =>
    rw [runSearch_eq_cases nodes edges startId endId ty opts adj hadj] at hr
    by_cases hbi : ty = .BiBFS
    · rw [if_pos hbi] at hr ⊢
      intro s hs pr hpr
      have h2 := biLoop_parents adj startId
        (buildAdjacency_sym nodes edges adj hadj) _ _
        ⟨List.mem_singleton.mpr rfl,
          fun pr hpr => absurd hpr (List.not_mem_nil pr),
          fun pr hpr => absurd hpr (List.not_mem_nil pr),
          fun x hx => hx, fun x hx => hx, Or.inl rfl,
          fun s hs => absurd hs (List.not_mem_nil s)⟩ h hr s hs pr hpr
      exact ⟨fun _ => h2.1, h2.2⟩
    · rw [if_neg hbi] at hr ⊢
      by_cases hse : startId = endId
      · rw [if_pos hse] at hr
        simp only [Option.some.injEq] at hr
        rw [← hr]
        intro s hs
        simp only [List.mem_singleton] at hs
        rw [hs]
        intro pr hpr
        exact absurd hpr (List.not_mem_nil pr)
      · rw [if_neg hse] at hr
        exact runLoop_parents nodes adj endId ty opts startId _ _
          ⟨fun pr hpr => absurd hpr (List.not_mem_nil pr),
            Or.inr ⟨rfl, rfl⟩,
            fun s hs => absurd hs (List.not_mem_nil s)⟩ h hr

theorem c6_parents_witness :
    runSearch c6Nodes c6Edges 0 2 .BFS ⟨true, .euclidean⟩ =
      some ((runSearch c6Nodes c6Edges 0 2 .BFS ⟨true, .euclidean⟩).getD []) ∧
    ∀ s ∈ (runSearch c6Nodes c6Edges 0 2 .BFS ⟨true, .euclidean⟩).getD [],
      ParentsOK 0 (if Strategy.BFS = .BiBFS then true
        else Options.checkDuplicates ⟨true, .euclidean⟩) s :=
  ⟨rfl, c6_parents c6Nodes c6Edges 0 2 .BFS ⟨true, .euclidean⟩ _ rfl⟩

theorem c6_cex :
    ((runSearch c6Nodes c6Edges 0 2 .BFS ⟨false, .euclidean⟩).getD []).any
      (fun s => s.parents.any (fun pr => decide (pr.1 = 0))) = true := by
  rfl

/-- C7 (corrected): an edge with an endpoint absent from the node list makes
construction throw before any snapshot (the run returns no history at all),
for every strategy and options — but an absent start or end id is not
validated: the engine runs normally and can produce an ordinary `failed`
history. -/
theorem c7_malformed_edge (nodes : List Node) (edges : List Edge)
    (startId endId : Nat) (ty : Strategy) (opts : Options)
    (hbad : ∃ e ∈ edges, nodes.any (fun n => n.id = e.source) = false ∨
      nodes.any (fun n => n.id = e.target) = false) :
    runSearch nodes edges startId endId ty opts = none :=
  runSearch_none nodes edges startId endId ty opts
    (buildAdjacency_bad nodes edges hbad)

theorem c7_malformed_edge_witness :
    (∃ e ∈ [(⟨0, 9, 1⟩ : Edge)],
      wNodes.any (fun n => n.id = e.source) = false ∨
      wNodes.any (fun n => n.id = e.target) = false) ∧
    runSearch wNodes [⟨0, 9, 1⟩] 0 1 .BFS ⟨true, .euclidean⟩ = none :=
  ⟨by decide,
    c7_malformed_edge wNodes [⟨0, 9, 1⟩] 0 1 .BFS ⟨true, .euclidean⟩
      (by decide)⟩

theorem c7_cex :
    (runSearch discNodes [] 5 1 .BFS ⟨true, .euclidean⟩).map
      (List.map Snapshot.status) = some [.exploring, .failed] := by
  rfl

/-- C8 (corrected): on the `nonAdmissible` preset, AStar with duplicate
suppression and the preset heuristic ends `found` with the path through `B`
(ids `0 → 2 → 3 → 4`, reconstructed goal-first as `[4, 3, 2, 0]`), whose
total edge cost is 103 (2 + 100 + 1), not 102 as claimed — the optimal
cost-4 route through `A` is indeed missed. -/
theorem c8_nonadmissible :
    ((runSearch naNodes naEdges 0 4 .AStar ⟨true, .preset⟩).getD
        []).getLast?.map
      (fun s => (s.status, getPathApp .AStar 0 4 s 10,
        pathCost naEdges (getPathApp .AStar 0 4 s 10))) =
      some (.found, [4, 3, 2, 0], 103) := by
  rfl

theorem c8_cex :
    ((runSearch naNodes naEdges 0 4 .AStar ⟨true, .preset⟩).getD
        []).getLast?.map
      (fun s => pathCost naEdges (getPathApp .AStar 0 4 s 10)) ≠
      some 102 := by
  decide

/-- C9 (corrected): bidirectional path reconstruction does not walk the two
parent maps separately.  On the path graph `0 — 1 — 2 — 3 — 4` a `BiBFS` run
from 0 to 4 ends `found` at intersection 2, but `getPath` walks only the
single merged parent map from the intersection, following end-side entries
away from the start, and returns `[0, 4, 3, 2]` — not a complete
start-to-end sequence. -/
theorem c9_bi_path (fuel : Nat) (hf : 3 ≤ fuel) :
    ((runSearch p5Nodes p5Edges 0 4 .BiBFS ⟨true, .euclidean⟩).getD
        []).getLast?.map (fun s => getPathApp .BiBFS 0 4 s fuel) =
      some [0, 4, 3, 2] := by
  obtain ⟨k, rfl⟩ : ∃ k, fuel = k + 3 := ⟨fuel - 3, by omega⟩
  rfl

theorem c9_bi_path_witness :
    3 ≤ 3 ∧
    ((runSearch p5Nodes p5Edges 0 4 .BiBFS ⟨true, .euclidean⟩).getD
        []).getLast?.map (fun s => getPathApp .BiBFS 0 4 s 3) =
      some [0, 4, 3, 2] :=
  ⟨by decide, c9_bi_path 3 (by decide)⟩

theorem c9_cex :
    ((runSearch p5Nodes p5Edges 0 4 .BiBFS ⟨true, .euclidean⟩).getD
        []).getLast?.map
      (fun s => (getPathApp .BiBFS 0 4 s 10).getLast?) =
      some (some 2) := by
  rfl

/-- C10 (confirmed): a `BiBFS` run never consults the options bag — the
history it produces is identical for any two option values, duplicate
suppression being always performed through the two visited sets. -/
theorem c10_bibfs_options (nodes : List Node) (edges : List Edge)
    (startId endId : Nat) (o1 o2 : Options) :
    runSearch nodes edges startId endId .BiBFS o1 =
      runSearch nodes edges startId endId .BiBFS o2 := by
  unfold runSearch
  cases buildAdjacency nodes edges <;> rfl

end GraphVis
